import Mathlib

set_option linter.unreachableTactic false
set_option linter.unusedTactic false
set_option linter.unusedVariables false

/-!
Shallow embedding of the tabular-dataset serialization engine of
`src/ignition/script-python/incendium/dataset/code.py`.

A dataset is a list of column names together with a list of rows, each row a
list of cell values.  A cell value is a tagged union (`PyObject`) mirroring the
dynamic values the source handles: `None`, strings (`basestring`), timestamps
(`java.util.Date`), nested datasets, integers, booleans, and an opaque
fallback for any other value (the source renders those via `"{!r}".format`).

Operations that can raise in the source (cell retrieval by column name on a
malformed dataset) are modelled with `Option`; `none` models a raised
exception.
-/

namespace Incendium

/-- A decimal digit character; used to model Python's decimal rendering of
integers (`repr`/`str` of an `int`). -/
def digitChar : Nat → Char
  | 0 => '0'
  | 1 => '1'
  | 2 => '2'
  | 3 => '3'
  | 4 => '4'
  | 5 => '5'
  | 6 => '6'
  | 7 => '7'
  | 8 => '8'
  | 9 => '9'
  | _ => '*'

/-- Big-endian decimal digits of `n`, prepended to `acc`; fuel-driven so that
it is structurally recursive (fuel `n + 1` always suffices). -/
def natReprAux : Nat → Nat → List Char → List Char
  | 0, _, acc => acc
  | fuel + 1, n, acc =>
    if n < 10 then digitChar n :: acc
    else natReprAux fuel (n / 10) (digitChar (n % 10) :: acc)

/-- Decimal rendering of a natural number, as Python renders it. -/
def natRepr (n : Nat) : String :=
  String.mk (natReprAux (n + 1) n [])

/-- Decimal rendering of an integer, as Python's `repr`/`str` of an `int`
renders it (optional minus sign, then digits). -/
def intRepr (n : Int) : String :=
  if n < 0 then "-" ++ natRepr n.natAbs else natRepr n.toNat

/-- Python's rendering of a `bool` (`"{!r}"` and `"{}"` both give
`True`/`False`). -/
def pyBoolRepr (b : Bool) : String :=
  if b then "True" else "False"

/-- Left-pad the decimal rendering of `n` with zeros to at least `w`
characters. -/
def padNum (w n : Nat) : String :=
  String.mk (List.replicate (w - (natRepr n).length) '0') ++ natRepr n

/-- A timestamp value (the fields a `java.util.Date` exposes once formatted):
calendar fields, milliseconds, and a UTC-offset in minutes. -/
structure PyDate where
  year : Nat
  month : Nat
  day : Nat
  hour : Nat
  minute : Nat
  second : Nat
  millis : Nat
  offsetMinutes : Int
deriving DecidableEq, Repr

/-- The `XXX` pattern of the platform's date formatter: `Z` for a zero
offset, otherwise a sign and `HH:MM`. -/
def offsetXXX (off : Int) : String :=
  if off = 0 then "Z"
  else (if off < 0 then "-" else "+") ++ padNum 2 (off.natAbs / 60) ++ ":" ++ padNum 2 (off.natAbs % 60)

/-- Modelled from the spec: the platform call
`system.date.format(obj, "yyyy-MM-dd'T'HH:mm:ss.SSSXXX")` is external to the
repository; this definition implements that format pattern (ISO-8601 with
milliseconds and a numeric UTC offset). -/
def formatDate (d : PyDate) : String :=
  padNum 4 d.year ++ "-" ++ padNum 2 d.month ++ "-" ++ padNum 2 d.day ++ "T" ++
    padNum 2 d.hour ++ ":" ++ padNum 2 d.minute ++ ":" ++ padNum 2 d.second ++ "." ++
    padNum 3 d.millis ++ offsetXXX d.offsetMinutes

/-- A dynamic cell value.  `pyds cols rows` is a nested dataset (column names
plus rows).  `pyother r` stands for any unrecognized scalar whose Python
`repr`/`str` text is `r` (the source's fallback branch). -/
inductive PyObject where
  | pynone : PyObject
  | pystr (s : String) : PyObject
  | pydate (d : PyDate) : PyObject
  | pyint (n : Int) : PyObject
  | pybool (b : Bool) : PyObject
  | pyother (r : String) : PyObject
  | pyds (cols : List String) (rows : List (List PyObject)) : PyObject

/-- The index of the first column whose name equals `header` (the
platform's `getColumnIndex`; the spec's "column lookup is by first match",
with names compared as given). -/
def findFirst (cols : List String) (header : String) : Option Nat :=
  match cols with
  | [] => none
  | c :: cs => if c = header then some 0 else (findFirst cs header).map (· + 1)

/-- Cell retrieval by column name, as the platform's
`dataset.getValueAt(row, header)` / `row[header]` do it: the first column
whose name equals `header` gives the position, and the cell at that position
of the row is returned.  `none` models the exception raised when the header
is unknown or the row is shorter than the column list. -/
def pyLookup (cols : List String) (row : List PyObject) (header : String) : Option PyObject :=
  match findFirst cols header with
  | none => none
  | some i => row.get? i

theorem pyLookup_mem {cols : List String} {row : List PyObject} {header : String}
    {cell : PyObject} (h : pyLookup cols row header = some cell) : cell ∈ row := by
  unfold pyLookup at h
  cases hidx : findFirst cols header with
  | none => rw [hidx] at h; exact absurd h (by simp)
  | some i =>
    rw [hidx] at h
    exact List.get?_mem h

theorem sizeOf_list_pos {α : Type} [SizeOf α] (l : List α) : 0 < sizeOf l := by
  cases l <;> simp

/-- `isinstance(value, Dataset)`. -/
def isDataset : PyObject → Bool
  | .pyds _ _ => true
  | _ => false

/-- Comma-join a list of fragments: the separator appears between
consecutive fragments only, never after the last one. -/
def joinComma : List String → String
  | [] => ""
  | [x] => x
  | x :: y :: xs => x ++ "," ++ joinComma (y :: xs)

/-- Map an `Option`-valued function over a list, propagating the first
`none` (the model of a loop whose body can raise). -/
def mapOpt {α β : Type} (f : α → Option β) : List α → Option (List β)
  | [] => some []
  | a :: as =>
    match f a with
    | none => none
    | some b =>
      match mapOpt f as with
      | none => none
      | some bs => some (b :: bs)

mutual

/-- `_format_value`: render one cell as a JSON fragment.  `None` becomes the
literal `null`; text is double-quoted with the raw characters inserted
verbatim (no escaping); a timestamp is double-quoted in the
`yyyy-MM-dd'T'HH:mm:ss.SSSXXX` format; a nested dataset recurses into
`_to_json` with the column name as root and `is_root = False`; anything else
falls back to its Python `repr`. -/
def formatValue (obj : PyObject) (header : String) : Option String :=
  match obj with
  | .pynone => some "null"
  | .pystr s => some ("\"" ++ s ++ "\"")
  | .pydate d => some ("\"" ++ formatDate d ++ "\"")
  | .pyint n => some (intRepr n)
  | .pybool b => some (pyBoolRepr b)
  | .pyother r => some r
  | .pyds ncols nrows => toJsonAux ncols nrows (some header) false
termination_by (sizeOf obj, 0)
decreasing_by
  all_goals try simp_wf
  all_goals solve
    | (apply Prod.Lex.left; exact List.sizeOf_lt_of_mem (pyLookup_mem hcell))
    | (apply Prod.Lex.left; omega)
    | (apply Prod.Lex.left; simp)
    | (apply Prod.Lex.left; simp; omega)
    | (apply Prod.Lex.left; have := sizeOf_list_pos ncols; omega)
    | (apply Prod.Lex.right; omega)
    | (apply Prod.Lex.right; simp; omega)

/-- The inner loop of `_to_json` over one row: `headers` is the remaining
part of the full column list, `colCount` the value of the source's
`col_count` counter before this iteration (incremented before the comma test,
so a comma follows every pair except the one at the last column position).
Cells holding nested datasets are spliced in without a `"column":` prefix,
since their fragment already carries it. -/
def jsonCells (cols : List String) (row : List PyObject) (headers : List String)
    (colCount : Nat) : Option String :=
  match headers with
  | [] => some ""
  | h :: hs =>
    match hcell : pyLookup cols row h with
    | none => none
    | some cell =>
      match formatValue cell h with
      | none => none
      | some val =>
        let comma := if colCount + 1 < cols.length then "," else ""
        let piece :=
          if isDataset cell then val ++ comma
          else "\"" ++ h ++ "\":" ++ val ++ comma
        match jsonCells cols row hs (colCount + 1) with
        | none => none
        | some rest => some (piece ++ rest)
termination_by (sizeOf row, 1 + sizeOf headers)
decreasing_by
  all_goals try simp_wf
  all_goals solve
    | (apply Prod.Lex.left; exact List.sizeOf_lt_of_mem (pyLookup_mem hcell))
    | (apply Prod.Lex.left; omega)
    | (apply Prod.Lex.left; simp)
    | (apply Prod.Lex.left; simp; omega)
    | (apply Prod.Lex.left; have := sizeOf_list_pos ncols; omega)
    | (apply Prod.Lex.right; omega)
    | (apply Prod.Lex.right; simp; omega)

/-- The outer loop of `_to_json` over the rows: `rowIdx` is the source's
1-based `enumerate` counter, `totalRows` the dataset's row count; each row
object is wrapped in braces and followed by a comma unless it is the last
row.  (`col_count` is reset at the end of each row in the source, so every
row's inner loop starts from 0.) -/
def jsonRows (cols : List String) (rows : List (List PyObject)) (rowIdx totalRows : Nat) :
    Option String :=
  match rows with
  | [] => some ""
  | row :: rest =>
    match jsonCells cols row cols 0 with
    | none => none
    | some cellsStr =>
      let rowStr := "\x7b" ++ cellsStr ++ "\x7d" ++ (if rowIdx < totalRows then "," else "")
      match jsonRows cols rest (rowIdx + 1) totalRows with
      | none => none
      | some restStr => some (rowStr ++ restStr)
termination_by (sizeOf rows, 1)
decreasing_by
  all_goals try simp_wf
  all_goals solve
    | (apply Prod.Lex.left; exact List.sizeOf_lt_of_mem (pyLookup_mem hcell))
    | (apply Prod.Lex.left; omega)
    | (apply Prod.Lex.left; simp)
    | (apply Prod.Lex.left; simp; omega)
    | (apply Prod.Lex.left; have := sizeOf_list_pos ncols; omega)
    | (apply Prod.Lex.right; omega)
    | (apply Prod.Lex.right; simp; omega)

/-- `_to_json`: opening brace only when at the root with a root key; the
array is keyed by the root when one is given; rows follow; then the closing
bracket and, at the root with a root key, the closing brace. -/
def toJsonAux (cols : List String) (rows : List (List PyObject)) (root : Option String)
    (isRoot : Bool) : Option String :=
  let pre := (if isRoot && root.isSome then "\x7b" else "") ++
    (match root with
     | some r => "\"" ++ r ++ "\":["
     | none => "[")
  match jsonRows cols rows 1 rows.length with
  | none => none
  | some body =>
    some (pre ++ body ++ "]" ++ (if isRoot && root.isSome then "\x7d" else ""))
termination_by (sizeOf rows + 1, 0)
decreasing_by
  all_goals try simp_wf
  all_goals solve
    | (apply Prod.Lex.left; exact List.sizeOf_lt_of_mem (pyLookup_mem hcell))
    | (apply Prod.Lex.left; omega)
    | (apply Prod.Lex.left; simp)
    | (apply Prod.Lex.left; simp; omega)
    | (apply Prod.Lex.left; have := sizeOf_list_pos ncols; omega)
    | (apply Prod.Lex.right; omega)
    | (apply Prod.Lex.right; simp; omega)

end

/-- `to_json`: the public entry point calls `_to_json` with `is_root`
defaulted to `True`. -/
def to_json (cols : List String) (rows : List (List PyObject)) (root : Option String) :
    Option String :=
  toJsonAux cols rows root true

/-- The Object Converter's output values: a non-dataset cell passes through
as the native value, a nested dataset becomes a sequence of row mappings. -/
inductive Obj where
  | scalar (v : PyObject) : Obj
  | table (t : List (List (String × Obj))) : Obj

/-- Python dict assignment `d[k] = v` on an insertion-ordered mapping: an
existing key keeps its position and gets the new value, a new key is
appended. -/
def dictInsert : List (String × Obj) → String → Obj → List (String × Obj)
  | [], k, v => [(k, v)]
  | (k', v') :: rest, k, v =>
    if k' = k then (k', v) :: rest else (k', v') :: dictInsert rest k v

/-- Python dict lookup `d[k]` (first matching entry). -/
def dictLookup : List (String × Obj) → String → Option Obj
  | [], _ => none
  | (k', v) :: rest, k => if k' = k then some v else dictLookup rest k

mutual

/-- `_format_object`: a nested dataset is recursively converted via
`_to_jsonobject`; every other value passes through unchanged. -/
def formatObject (obj : PyObject) : Option Obj :=
  match obj with
  | .pyds ncols nrows =>
    match objRows ncols nrows with
    | none => none
    | some t => some (.table t)
  | v => some (.scalar v)
termination_by (sizeOf obj, 0)
decreasing_by
  all_goals try simp_wf
  all_goals solve
    | (apply Prod.Lex.left; exact List.sizeOf_lt_of_mem (pyLookup_mem hcell))
    | (apply Prod.Lex.left; omega)
    | (apply Prod.Lex.left; simp)
    | (apply Prod.Lex.left; simp; omega)
    | (apply Prod.Lex.left; have := sizeOf_list_pos ncols; omega)
    | (apply Prod.Lex.right; omega)
    | (apply Prod.Lex.right; simp; omega)

/-- The dict comprehension of `_to_jsonobject` for one row: iterate the
column names in order, inserting `header ↦ _format_object(getValueAt(i,
header))` into the row's mapping. -/
def objRowFold (cols : List String) (row : List PyObject) (headers : List String)
    (acc : List (String × Obj)) : Option (List (String × Obj)) :=
  match headers with
  | [] => some acc
  | h :: hs =>
    match hcell : pyLookup cols row h with
    | none => none
    | some cell =>
      match formatObject cell with
      | none => none
      | some o => objRowFold cols row hs (dictInsert acc h o)
termination_by (sizeOf row, 1 + sizeOf headers)
decreasing_by
  all_goals try simp_wf
  all_goals solve
    | (apply Prod.Lex.left; exact List.sizeOf_lt_of_mem (pyLookup_mem hcell))
    | (apply Prod.Lex.left; omega)
    | (apply Prod.Lex.left; simp)
    | (apply Prod.Lex.left; simp; omega)
    | (apply Prod.Lex.left; have := sizeOf_list_pos ncols; omega)
    | (apply Prod.Lex.right; omega)
    | (apply Prod.Lex.right; simp; omega)

/-- The row loop of `_to_jsonobject`: one mapping per row, in row order. -/
def objRows (cols : List String) (rows : List (List PyObject)) :
    Option (List (List (String × Obj))) :=
  match rows with
  | [] => some []
  | row :: rest =>
    match objRowFold cols row cols [] with
    | none => none
    | some d =>
      match objRows cols rest with
      | none => none
      | some ds => some (d :: ds)
termination_by (sizeOf rows, 1)
decreasing_by
  all_goals try simp_wf
  all_goals solve
    | (apply Prod.Lex.left; exact List.sizeOf_lt_of_mem (pyLookup_mem hcell))
    | (apply Prod.Lex.left; omega)
    | (apply Prod.Lex.left; simp)
    | (apply Prod.Lex.left; simp; omega)
    | (apply Prod.Lex.left; have := sizeOf_list_pos ncols; omega)
    | (apply Prod.Lex.right; omega)
    | (apply Prod.Lex.right; simp; omega)

end

/-- `to_jsonobject` (and the private `_to_jsonobject` it forwards to). -/
def to_jsonobject (cols : List String) (rows : List (List PyObject)) :
    Option (List (List (String × Obj))) :=
  objRows cols rows

/-- Modelled from the spec: §4.4 stringifies each cell via its default
textual representation (`"{value}".format`, i.e. Python `str`).  The
defaults for `None`, strings, integers and booleans are Python's; the
platform's default text for timestamps and nested datasets is external to
the repository (a limitation §9 notes), and no claim depends on its exact
form. -/
def pyStr : PyObject → String
  | .pynone => "None"
  | .pystr s => s
  | .pydate d => formatDate d
  | .pyint n => intRepr n
  | .pybool b => pyBoolRepr b
  | .pyother r => r
  | .pyds cols rows => "Dataset [" ++ natRepr rows.length ++ "R x " ++ natRepr cols.length ++ "C]"

/-- The `_NanoXML` text builder: a root name, an indent unit, and the
append-only output buffer. -/
structure NanoXML where
  root : String
  indent : String
  output : String

/-- `_NanoXML.__init__`: the buffer starts as `<root>` plus a newline. -/
def NanoXML.init (root indent : String) : NanoXML :=
  ⟨root, indent, "<" ++ root ++ ">" ++ "\n"⟩

/-- `add_element`: one indent unit, `<name>`, newline. -/
def NanoXML.addElement (x : NanoXML) (name : String) : NanoXML :=
  ⟨x.root, x.indent, x.output ++ x.indent ++ "<" ++ name ++ ">" ++ "\n"⟩

/-- `add_sub_element`: two indent units, `<name>value</name>`, newline. -/
def NanoXML.addSubElement (x : NanoXML) (name value : String) : NanoXML :=
  ⟨x.root, x.indent,
    x.output ++ x.indent ++ x.indent ++ "<" ++ name ++ ">" ++ value ++ "</" ++ name ++ ">" ++ "\n"⟩

/-- `close_element`: one indent unit, `</name>`, newline. -/
def NanoXML.closeElement (x : NanoXML) (name : String) : NanoXML :=
  ⟨x.root, x.indent, x.output ++ x.indent ++ "</" ++ name ++ ">" ++ "\n"⟩

/-- `to_string`: append `</root>` (no trailing newline) and return the
buffer. -/
def NanoXML.to_string (x : NanoXML) : String :=
  x.output ++ "</" ++ x.root ++ ">"

/-- The inner loop of `to_xml`: one sub-element per column name, the value
fetched by `getValueAt(i, header)` and stringified generically. -/
def xmlCells (cols : List String) (row : List PyObject) (headers : List String)
    (x : NanoXML) : Option NanoXML :=
  match headers with
  | [] => some x
  | h :: hs =>
    match pyLookup cols row h with
    | none => none
    | some v => xmlCells cols row hs (x.addSubElement h (pyStr v))

/-- The row loop of `to_xml`: open one row element per row, add the
sub-elements, close the row element. -/
def xmlRows (cols : List String) (rows : List (List PyObject)) (element : String)
    (x : NanoXML) : Option NanoXML :=
  match rows with
  | [] => some x
  | row :: rest =>
    match xmlCells cols row cols (x.addElement element) with
    | none => none
    | some x' => xmlRows cols rest element (x'.closeElement element)

/-- `to_xml`: drive a fresh `_NanoXML` over the dataset and finish it. -/
def to_xml (cols : List String) (rows : List (List PyObject))
    (root element indent : String) : Option String :=
  (xmlRows cols rows element (NanoXML.init root indent)).map NanoXML.to_string

/-- First-match lookup in an input mapping (`header in dict_.keys()` then
`dict_[header]`). -/
def assocLookup : List (String × PyObject) → String → Option PyObject
  | [], _ => none
  | (k', v) :: rest, k => if k' = k then some v else assocLookup rest k

/-- Keep the first occurrence of each string, dropping later duplicates;
`seen` holds the strings already emitted. -/
def dedupFirstAux : List String → List String → List String
  | [], _ => []
  | h :: hs, seen =>
    if h ∈ seen then dedupFirstAux hs seen else h :: dedupFirstAux hs (h :: seen)

/-- First-seen-order deduplication. -/
def dedupFirst (l : List String) : List String :=
  dedupFirstAux l []

/-- Modelled from the spec: the source computes the column set as
`set().union(*(d.keys() for d in list_of_dicts))`, whose iteration order is
undefined; §9 directs a deterministic first-seen order, which this
definition uses. -/
def keyUnion (L : List (List (String × PyObject))) : List String :=
  dedupFirst ((L.map (fun m => m.map Prod.fst)).flatten)

/-- `from_list_of_dicts`: columns are the union of all keys; each input
mapping yields one row holding, per column, the mapping's value for that
key when present and `None` otherwise. -/
def from_list_of_dicts (L : List (List (String × PyObject))) :
    List String × List (List PyObject) :=
  let headers := keyUnion L
  (headers,
    L.map (fun m => headers.map (fun h =>
      match assocLookup m h with
      | some v => v
      | none => .pynone)))

mutual

/-- A cell is valid when any nested dataset it holds is valid. -/
def validObj (obj : PyObject) : Bool :=
  match obj with
  | .pyds ncols nrows => validRows ncols nrows
  | _ => true
termination_by (sizeOf obj, 0)
decreasing_by
  all_goals try simp_wf
  all_goals solve
    | (apply Prod.Lex.left; exact List.sizeOf_lt_of_mem (pyLookup_mem hcell))
    | (apply Prod.Lex.left; omega)
    | (apply Prod.Lex.left; simp)
    | (apply Prod.Lex.left; simp; omega)
    | (apply Prod.Lex.left; have := sizeOf_list_pos ncols; omega)
    | (apply Prod.Lex.right; omega)
    | (apply Prod.Lex.right; simp; omega)

def validCells (cells : List PyObject) : Bool :=
  match cells with
  | [] => true
  | c :: cs => validObj c && validCells cs
termination_by (sizeOf cells, 2)
decreasing_by
  all_goals try simp_wf
  all_goals solve
    | (apply Prod.Lex.left; exact List.sizeOf_lt_of_mem (pyLookup_mem hcell))
    | (apply Prod.Lex.left; omega)
    | (apply Prod.Lex.left; simp)
    | (apply Prod.Lex.left; simp; omega)
    | (apply Prod.Lex.left; have := sizeOf_list_pos ncols; omega)
    | (apply Prod.Lex.right; omega)
    | (apply Prod.Lex.right; simp; omega)

/-- A dataset is valid when every row has exactly one cell per column and
every cell is valid (the data-model invariant of §3). -/
def validRows (cols : List String) (rows : List (List PyObject)) : Bool :=
  match rows with
  | [] => true
  | row :: rest => (row.length == cols.length) && validCells row && validRows cols rest
termination_by (sizeOf rows, 1)
decreasing_by
  all_goals try simp_wf
  all_goals solve
    | (apply Prod.Lex.left; exact List.sizeOf_lt_of_mem (pyLookup_mem hcell))
    | (apply Prod.Lex.left; omega)
    | (apply Prod.Lex.left; simp)
    | (apply Prod.Lex.left; simp; omega)
    | (apply Prod.Lex.left; have := sizeOf_list_pos ncols; omega)
    | (apply Prod.Lex.right; omega)
    | (apply Prod.Lex.right; simp; omega)

end

/-- A character a JSON string literal may contain verbatim: not the quote,
not the backslash, not a control character. -/
def jsonSafeChar (c : Char) : Bool :=
  c ≠ '"' && c ≠ '\\' && 32 ≤ c.toNat

/-- A string every character of which may sit verbatim inside a JSON string
literal. -/
def jsonCleanStr (s : String) : Bool :=
  s.data.all jsonSafeChar

mutual

/-- A cell whose unescaped JSON rendering is standard JSON: text must be
JSON-safe, booleans and fallback values are excluded (the source renders
them as `True`/`False` and raw `repr` text), nested datasets recurse. -/
def cleanObj (obj : PyObject) : Bool :=
  match obj with
  | .pynone => true
  | .pystr s => jsonCleanStr s
  | .pydate _ => true
  | .pyint _ => true
  | .pybool _ => false
  | .pyother _ => false
  | .pyds ncols nrows => cleanTable ncols nrows
termination_by (sizeOf obj, 0)
decreasing_by
  all_goals try simp_wf
  all_goals solve
    | (apply Prod.Lex.left; exact List.sizeOf_lt_of_mem (pyLookup_mem hcell))
    | (apply Prod.Lex.left; omega)
    | (apply Prod.Lex.left; simp)
    | (apply Prod.Lex.left; simp; omega)
    | (apply Prod.Lex.left; have := sizeOf_list_pos ncols; omega)
    | (apply Prod.Lex.right; omega)
    | (apply Prod.Lex.right; simp; omega)

def cleanCells (cells : List PyObject) : Bool :=
  match cells with
  | [] => true
  | c :: cs => cleanObj c && cleanCells cs
termination_by (sizeOf cells, 2)
decreasing_by
  all_goals try simp_wf
  all_goals solve
    | (apply Prod.Lex.left; exact List.sizeOf_lt_of_mem (pyLookup_mem hcell))
    | (apply Prod.Lex.left; omega)
    | (apply Prod.Lex.left; simp)
    | (apply Prod.Lex.left; simp; omega)
    | (apply Prod.Lex.left; have := sizeOf_list_pos ncols; omega)
    | (apply Prod.Lex.right; omega)
    | (apply Prod.Lex.right; simp; omega)

def cleanRows (cols : List String) (rows : List (List PyObject)) : Bool :=
  match rows with
  | [] => true
  | row :: rest => (row.length == cols.length) && cleanCells row && cleanRows cols rest
termination_by (sizeOf rows, 1)
decreasing_by
  all_goals try simp_wf
  all_goals solve
    | (apply Prod.Lex.left; exact List.sizeOf_lt_of_mem (pyLookup_mem hcell))
    | (apply Prod.Lex.left; omega)
    | (apply Prod.Lex.left; simp)
    | (apply Prod.Lex.left; simp; omega)
    | (apply Prod.Lex.left; have := sizeOf_list_pos ncols; omega)
    | (apply Prod.Lex.right; omega)
    | (apply Prod.Lex.right; simp; omega)

/-- A dataset all of whose column names are JSON-safe and whose rows are
well-sized with clean cells. -/
def cleanTable (cols : List String) (rows : List (List PyObject)) : Bool :=
  cols.all jsonCleanStr && cleanRows cols rows
termination_by (sizeOf rows + 1, 0)
decreasing_by
  all_goals try simp_wf
  all_goals solve
    | (apply Prod.Lex.left; exact List.sizeOf_lt_of_mem (pyLookup_mem hcell))
    | (apply Prod.Lex.left; omega)
    | (apply Prod.Lex.left; simp)
    | (apply Prod.Lex.left; simp; omega)
    | (apply Prod.Lex.left; have := sizeOf_list_pos ncols; omega)
    | (apply Prod.Lex.right; omega)
    | (apply Prod.Lex.right; simp; omega)

end

/-!
Reference (specification-side) forms of the converters, used to state the
claims: the row pieces are comma-joined with `joinComma`, so "no trailing
comma" and "counter reset per row" are structural.
-/

/-- The fragment `_to_json` contributes for the cell of column `header`: for
a nested dataset, exactly the recursive conversion with the column name as
root and `is_root = False`, with no additional `"header":` prefix; for every
other value, the `"header":` prefix followed by the formatted value. -/
def jsonPiece (cols : List String) (row : List PyObject) (header : String) : Option String :=
  match pyLookup cols row header with
  | none => none
  | some (.pyds ncols nrows) => toJsonAux ncols nrows (some header) false
  | some v => (formatValue v header).map (fun s => "\"" ++ header ++ "\":" ++ s)

/-- Reference form of one row object: the column pieces in column order,
comma-joined, wrapped in braces. -/
def specRow (cols : List String) (row : List PyObject) : Option String :=
  (mapOpt (jsonPiece cols row) cols).map (fun ps => "\x7b" ++ joinComma ps ++ "\x7d")

/-- Reference form of the row array's body: the row objects in row order,
comma-joined. -/
def specBody (cols : List String) (rows : List (List PyObject)) : Option String :=
  (mapOpt (specRow cols) rows).map joinComma

/-- Reference form of one row mapping of `_to_jsonobject`: one entry per
distinct column name, in first-occurrence order, holding the object-mode
formatting of the cell retrieved by that name. -/
def objRowSpec (cols : List String) (row : List PyObject) : Option (List (String × Obj)) :=
  mapOpt (fun h => ((pyLookup cols row h).bind formatObject).map (fun o => (h, o)))
    (dedupFirst cols)

/-- A standard JSON value, with integer numerals (the only numbers the
claims need). -/
inductive Json where
  | null : Json
  | bool (b : Bool) : Json
  | num (n : Int) : Json
  | str (s : String) : Json
  | arr (elems : List Json) : Json
  | obj (members : List (String × Json)) : Json

mutual

/-- The standard compact textual rendering of a JSON value: no whitespace,
object members as `"key":value`.  String bodies are emitted verbatim, which
is the honest JSON rendering exactly when they are `jsonCleanStr`. -/
def renderJson (j : Json) : String :=
  match j with
  | .null => "null"
  | .bool b => if b then "true" else "false"
  | .num n => intRepr n
  | .str s => "\"" ++ s ++ "\""
  | .arr l => "[" ++ joinComma (renderList l) ++ "]"
  | .obj ms => "\x7b" ++ joinComma (renderMembers ms) ++ "\x7d"
termination_by (sizeOf j, 0)
decreasing_by
  all_goals try simp_wf
  all_goals solve
    | (apply Prod.Lex.left; omega)
    | (apply Prod.Lex.left; simp)
    | (apply Prod.Lex.left; simp; omega)

def renderList (l : List Json) : List String :=
  match l with
  | [] => []
  | j :: js => renderJson j :: renderList js
termination_by (sizeOf l, 1)
decreasing_by
  all_goals try simp_wf
  all_goals solve
    | (apply Prod.Lex.left; omega)
    | (apply Prod.Lex.left; simp)
    | (apply Prod.Lex.left; simp; omega)

def renderMembers (ms : List (String × Json)) : List String :=
  match ms with
  | [] => []
  | (k, v) :: rest => ("\"" ++ k ++ "\":" ++ renderJson v) :: renderMembers rest
termination_by (sizeOf ms, 1)
decreasing_by
  all_goals try simp_wf
  all_goals solve
    | (apply Prod.Lex.left; omega)
    | (apply Prod.Lex.left; simp)
    | (apply Prod.Lex.left; simp; omega)

end

mutual

/-- All string literals (bodies and object keys) of the value are JSON-safe,
so that `renderJson` of the value is genuine JSON text. -/
def goodJson (j : Json) : Bool :=
  match j with
  | .null => true
  | .bool _ => true
  | .num _ => true
  | .str s => jsonCleanStr s
  | .arr l => goodList l
  | .obj ms => goodMembers ms
termination_by (sizeOf j, 0)
decreasing_by
  all_goals try simp_wf
  all_goals solve
    | (apply Prod.Lex.left; omega)
    | (apply Prod.Lex.left; simp)
    | (apply Prod.Lex.left; simp; omega)

def goodList (l : List Json) : Bool :=
  match l with
  | [] => true
  | j :: js => goodJson j && goodList js
termination_by (sizeOf l, 1)
decreasing_by
  all_goals try simp_wf
  all_goals solve
    | (apply Prod.Lex.left; omega)
    | (apply Prod.Lex.left; simp)
    | (apply Prod.Lex.left; simp; omega)

def goodMembers (ms : List (String × Json)) : Bool :=
  match ms with
  | [] => true
  | (k, v) :: rest => jsonCleanStr k && goodJson v && goodMembers rest
termination_by (sizeOf ms, 1)
decreasing_by
  all_goals try simp_wf
  all_goals solve
    | (apply Prod.Lex.left; omega)
    | (apply Prod.Lex.left; simp)
    | (apply Prod.Lex.left; simp; omega)

end

mutual

/-- The JSON value a clean cell renders as: `None ↦ null`, text and
timestamps as strings, integers as numbers, nested datasets as arrays of
row objects. -/
def jsonOfCell (obj : PyObject) : Json :=
  match obj with
  | .pynone => .null
  | .pystr s => .str s
  | .pydate d => .str (formatDate d)
  | .pyint n => .num n
  | .pybool b => .bool b
  | .pyother r => .str r
  | .pyds ncols nrows => .arr (jsonTable ncols nrows)
termination_by (sizeOf obj, 0)
decreasing_by
  all_goals try simp_wf
  all_goals solve
    | (apply Prod.Lex.left; have := sizeOf_list_pos ncols; omega)
    | (apply Prod.Lex.left; have := sizeOf_list_pos ncols; simp; omega)

/-- The JSON object members of one row, one per column name in column
order. -/
def jsonRowMembers (cols : List String) (row : List PyObject) (headers : List String) :
    List (String × Json) :=
  match headers with
  | [] => []
  | h :: hs =>
    (h,
      match hcell : pyLookup cols row h with
      | none => Json.null
      | some cell => jsonOfCell cell) :: jsonRowMembers cols row hs
termination_by (sizeOf row, 1 + sizeOf headers)
decreasing_by
  all_goals try simp_wf
  all_goals solve
    | (apply Prod.Lex.left; exact List.sizeOf_lt_of_mem (pyLookup_mem hcell))
    | (apply Prod.Lex.right; omega)

/-- The JSON array elements of a dataset: one object per row. -/
def jsonTable (cols : List String) (rows : List (List PyObject)) : List Json :=
  match rows with
  | [] => []
  | row :: rest => .obj (jsonRowMembers cols row cols) :: jsonTable cols rest
termination_by (sizeOf rows, 1)
decreasing_by
  all_goals try simp_wf
  all_goals solve
    | (apply Prod.Lex.left; omega)
    | (apply Prod.Lex.left; simp)
    | (apply Prod.Lex.left; simp; omega)

end

/-! Basic lemmas about the small combinators. -/

theorem joinComma_nil : joinComma [] = "" := rfl

theorem joinComma_single (x : String) : joinComma [x] = x := rfl

theorem joinComma_cons (x : String) {ys : List String} (hne : ys ≠ []) :
    joinComma (x :: ys) = x ++ "," ++ joinComma ys := by
  cases ys with
  | nil => exact absurd rfl hne
  | cons y ys => rfl

theorem mapOpt_nil {α β : Type} (f : α → Option β) : mapOpt f [] = some [] := rfl

theorem mapOpt_cons {α β : Type} (f : α → Option β) (a : α) (as : List α) :
    mapOpt f (a :: as) = (f a).bind (fun b => (mapOpt f as).map (fun bs => b :: bs)) := by
  cases hfa : f a <;> cases hrest : mapOpt f as <;> simp [mapOpt, hfa, hrest]

theorem mapOpt_length {α β : Type} {f : α → Option β} :
    ∀ {l : List α} {bs : List β}, mapOpt f l = some bs → bs.length = l.length := by
  intro l
  induction l with
  | nil => intro bs h; simp [mapOpt] at h; simp [← h]
  | cons a as ih =>
    intro bs h
    rw [mapOpt_cons] at h
    cases hfa : f a with
    | none => rw [hfa] at h; simp at h
    | some b =>
      rw [hfa] at h
      cases hrest : mapOpt f as with
      | none => rw [hrest] at h; simp at h
      | some bs' =>
        rw [hrest] at h
        simp at h
        subst h
        simp [ih hrest]

theorem mapOpt_isSome {α β : Type} {f : α → Option β} :
    ∀ {l : List α}, (∀ a ∈ l, (f a).isSome) → (mapOpt f l).isSome := by
  intro l
  induction l with
  | nil => intro _; simp [mapOpt]
  | cons a as ih =>
    intro h
    rw [mapOpt_cons]
    cases hfa : f a with
    | none =>
      have := h a (by simp)
      rw [hfa] at this
      simp at this
    | some b =>
      cases hrest : mapOpt f as with
      | none =>
        have := ih (fun x hx => h x (by simp [hx]))
        rw [hrest] at this
        simp at this
      | some bs => simp

theorem mapOpt_mem {α β : Type} {f : α → Option β} :
    ∀ {l : List α} {bs : List β}, mapOpt f l = some bs → ∀ b ∈ bs, ∃ a ∈ l, f a = some b := by
  intro l
  induction l with
  | nil => intro bs h; simp [mapOpt] at h; subst h; simp
  | cons a as ih =>
    intro bs h
    rw [mapOpt_cons] at h
    cases hfa : f a with
    | none => rw [hfa] at h; simp at h
    | some b0 =>
      rw [hfa] at h
      cases hrest : mapOpt f as with
      | none => rw [hrest] at h; simp at h
      | some bs' =>
        rw [hrest] at h
        simp at h
        intro b hb
        rw [← h] at hb
        rcases List.mem_cons.mp hb with hb | hb
        · refine ⟨a, by simp, ?_⟩
          rw [hfa, hb]
        · rcases ih hrest b hb with ⟨a', ha', hfa'⟩
          exact ⟨a', by simp [ha'], hfa'⟩

/-! Lemmas about `findFirst` and `pyLookup`. -/

theorem findFirst_lt_length :
    ∀ {cols : List String} {header : String} {j : Nat},
      findFirst cols header = some j → j < cols.length := by
  intro cols
  induction cols with
  | nil => intro header j h; simp [findFirst] at h
  | cons c cs ih =>
    intro header j h
    rw [findFirst] at h
    by_cases hc : c = header
    · rw [if_pos hc] at h
      simp at h
      simp [← h]
    · rw [if_neg hc] at h
      cases hrec : findFirst cs header with
      | none => rw [hrec] at h; simp at h
      | some j' =>
        rw [hrec] at h
        simp at h
        have := ih hrec
        simp [← h]
        omega

theorem findFirst_isSome_of_mem :
    ∀ {cols : List String} {header : String},
      header ∈ cols → (findFirst cols header).isSome := by
  intro cols
  induction cols with
  | nil => intro header h; simp at h
  | cons c cs ih =>
    intro header h
    rw [findFirst]
    by_cases hc : c = header
    · rw [if_pos hc]; simp
    · rw [if_neg hc]
      rcases List.mem_cons.mp h with h | h
      · exact absurd h.symm hc
      · have := ih h
        cases hrec : findFirst cs header with
        | none => rw [hrec] at this; simp at this
        | some j => simp [hrec]

theorem findFirst_get :
    ∀ {cols : List String} {header : String} {j : Nat},
      findFirst cols header = some j → cols.get? j = some header := by
  intro cols
  induction cols with
  | nil => intro header j h; simp [findFirst] at h
  | cons c cs ih =>
    intro header j h
    rw [findFirst] at h
    by_cases hc : c = header
    · rw [if_pos hc] at h
      simp at h
      simp [← h, hc]
    · rw [if_neg hc] at h
      cases hrec : findFirst cs header with
      | none => rw [hrec] at h; simp at h
      | some j' =>
        rw [hrec] at h
        simp at h
        rw [← h]
        simpa using ih hrec

theorem pyLookup_isSome {cols : List String} {row : List PyObject} {header : String}
    (hmem : header ∈ cols) (hlen : row.length = cols.length) :
    (pyLookup cols row header).isSome := by
  unfold pyLookup
  cases hidx : findFirst cols header with
  | none =>
    have := findFirst_isSome_of_mem hmem
    rw [hidx] at this
    simp at this
  | some j =>
    have hj := findFirst_lt_length hidx
    have hjr : j < row.length := by omega
    simp only []
    rw [List.get?_eq_get hjr]
    simp

theorem jsonPiece_none {cols : List String} {row : List PyObject} {h : String}
    (hcell : pyLookup cols row h = none) : jsonPiece cols row h = none := by
  simp [jsonPiece, hcell]

theorem jsonPiece_ds {cols : List String} {row : List PyObject} {h : String}
    {nc : List String} {nr : List (List PyObject)}
    (hcell : pyLookup cols row h = some (.pyds nc nr)) :
    jsonPiece cols row h = toJsonAux nc nr (some h) false := by
  simp [jsonPiece, hcell]

theorem jsonPiece_scalar {cols : List String} {row : List PyObject} {h : String}
    {cell : PyObject} (hcell : pyLookup cols row h = some cell)
    (hnds : isDataset cell = false) :
    jsonPiece cols row h = (formatValue cell h).map (fun s => "\"" ++ h ++ "\":" ++ s) := by
  unfold jsonPiece
  rw [hcell]
  cases cell <;> simp_all [isDataset]

theorem formatValue_ds {nc : List String} {nr : List (List PyObject)} {h : String} :
    formatValue (.pyds nc nr) h = toJsonAux nc nr (some h) false := by
  rw [formatValue]

/-! Extraction lemmas for the validity and cleanliness predicates. -/

theorem validRows_row :
    ∀ {cols : List String} {rows : List (List PyObject)},
      validRows cols rows = true → ∀ {row : List PyObject}, row ∈ rows →
        row.length = cols.length ∧ validCells row = true := by
  intro cols rows
  induction rows with
  | nil => intro _ row hr; simp at hr
  | cons r rest ih =>
    intro h row hr
    rw [validRows] at h
    simp only [Bool.and_eq_true, beq_iff_eq] at h
    rcases List.mem_cons.mp hr with hr | hr
    · subst hr
      exact ⟨h.1.1, h.1.2⟩
    · exact ih h.2 hr

theorem validRows_tail {cols : List String} {row : List PyObject}
    {rest : List (List PyObject)} (h : validRows cols (row :: rest) = true) :
    validRows cols rest = true := by
  rw [validRows] at h
  simp only [Bool.and_eq_true] at h
  exact h.2

theorem validCells_cell :
    ∀ {row : List PyObject}, validCells row = true →
      ∀ {c : PyObject}, c ∈ row → validObj c = true := by
  intro row
  induction row with
  | nil => intro _ c hc; simp at hc
  | cons x xs ih =>
    intro h c hc
    rw [validCells] at h
    simp only [Bool.and_eq_true] at h
    rcases List.mem_cons.mp hc with hc | hc
    · subst hc; exact h.1
    · exact ih h.2 hc

theorem validObj_ds {nc : List String} {nr : List (List PyObject)}
    (h : validObj (.pyds nc nr) = true) : validRows nc nr = true := by
  rw [validObj] at h
  exact h

theorem cleanTable_split {cols : List String} {rows : List (List PyObject)}
    (h : cleanTable cols rows = true) :
    cols.all jsonCleanStr = true ∧ cleanRows cols rows = true := by
  rw [cleanTable] at h
  simpa using h

theorem cleanRows_row :
    ∀ {cols : List String} {rows : List (List PyObject)},
      cleanRows cols rows = true → ∀ {row : List PyObject}, row ∈ rows →
        row.length = cols.length ∧ cleanCells row = true := by
  intro cols rows
  induction rows with
  | nil => intro _ row hr; simp at hr
  | cons r rest ih =>
    intro h row hr
    rw [cleanRows] at h
    simp only [Bool.and_eq_true, beq_iff_eq] at h
    rcases List.mem_cons.mp hr with hr | hr
    · subst hr
      exact ⟨h.1.1, h.1.2⟩
    · exact ih h.2 hr

theorem cleanRows_tail {cols : List String} {row : List PyObject}
    {rest : List (List PyObject)} (h : cleanRows cols (row :: rest) = true) :
    cleanRows cols rest = true := by
  rw [cleanRows] at h
  simp only [Bool.and_eq_true] at h
  exact h.2

theorem cleanCells_cell :
    ∀ {row : List PyObject}, cleanCells row = true →
      ∀ {c : PyObject}, c ∈ row → cleanObj c = true := by
  intro row
  induction row with
  | nil => intro _ c hc; simp at hc
  | cons x xs ih =>
    intro h c hc
    rw [cleanCells] at h
    simp only [Bool.and_eq_true] at h
    rcases List.mem_cons.mp hc with hc | hc
    · subst hc; exact h.1
    · exact ih h.2 hc

theorem validObj_not_ds {c : PyObject} (h : isDataset c = false) : validObj c = true := by
  cases c <;> simp_all [isDataset, validObj]

theorem validCells_iff :
    ∀ {row : List PyObject},
      validCells row = true ↔ ∀ c ∈ row, validObj c = true := by
  intro row
  induction row with
  | nil => simp [validCells]
  | cons x xs ih =>
    rw [validCells]
    simp only [Bool.and_eq_true, ih]
    constructor
    · intro h c hc
      rcases List.mem_cons.mp hc with hc | hc
      · subst hc; exact h.1
      · exact h.2 c hc
    · intro h
      exact ⟨h x (by simp), fun c hc => h c (by simp [hc])⟩

theorem validRows_iff :
    ∀ {cols : List String} {rows : List (List PyObject)},
      validRows cols rows = true ↔
        ∀ row ∈ rows, row.length = cols.length ∧ validCells row = true := by
  intro cols rows
  induction rows with
  | nil => simp [validRows]
  | cons r rest ih =>
    rw [validRows]
    simp only [Bool.and_eq_true, beq_iff_eq, ih]
    constructor
    · intro h row hr
      rcases List.mem_cons.mp hr with hr | hr
      · subst hr; exact ⟨h.1.1, h.1.2⟩
      · exact h.2 row hr
    · intro h
      refine ⟨⟨(h r (by simp)).1, (h r (by simp)).2⟩, fun row hr => h row (by simp [hr])⟩

/-- A clean dataset is in particular a valid one. -/
theorem cleanTable_valid :
    ∀ (N : Nat) (cols : List String) (rows : List (List PyObject)),
      sizeOf rows ≤ N → cleanTable cols rows = true → validRows cols rows = true := by
  intro N
  induction N with
  | zero =>
    intro cols rows hsz _
    have := sizeOf_list_pos rows
    omega
  | succ n ih =>
    intro cols rows hsz hclean
    have hrows := (cleanTable_split hclean).2
    rw [validRows_iff]
    intro row hrow
    refine ⟨(cleanRows_row hrows hrow).1, ?_⟩
    rw [validCells_iff]
    intro c hc
    have hcl := cleanCells_cell (cleanRows_row hrows hrow).2 hc
    cases c with
    | pyds nc nr =>
      rw [validObj]
      rw [cleanObj] at hcl
      apply ih nc nr ?_ hcl
      have e1 : sizeOf nr < sizeOf (PyObject.pyds nc nr) := by
        have := sizeOf_list_pos nc
        solve | (simp; omega) | simp | omega
      have e2 : sizeOf (PyObject.pyds nc nr) < sizeOf row :=
        List.sizeOf_lt_of_mem hc
      have e3 : sizeOf row < sizeOf rows := List.sizeOf_lt_of_mem hrow
      omega
    | pynone => simp [validObj]
    | pystr s => simp [validObj]
    | pydate d => simp [validObj]
    | pyint n => simp [validObj]
    | pybool b => simp [validObj]
    | pyother r => simp [validObj]

/-!
The stateful column loop of `_to_json` equals the reference comma-join form:
pieces in column order, comma-separated, no trailing comma.
-/

theorem jsonCells_eq (cols : List String) (row : List PyObject) :
    ∀ (headers : List String) (colCount : Nat),
      colCount + headers.length = cols.length →
      jsonCells cols row headers colCount =
        (mapOpt (jsonPiece cols row) headers).map joinComma := by
  intro headers
  induction headers with
  | nil =>
    intro colCount hlen
    rw [jsonCells]
    simp [mapOpt_nil, joinComma_nil]
  | cons h hs ih =>
    intro colCount hlen
    rw [jsonCells, mapOpt_cons]
    cases hcell : pyLookup cols row h with
    | none =>
      rw [jsonPiece_none hcell]
      simp
    | some cell =>
      cases hval : formatValue cell h with
      | none =>
        have hp : jsonPiece cols row h = none := by
          cases cell with
          | pyds nc nr =>
            rw [jsonPiece_ds hcell]
            rw [formatValue] at hval
            exact hval
          | pynone => rw [formatValue] at hval; exact absurd hval (by simp)
          | pystr s => rw [formatValue] at hval; exact absurd hval (by simp)
          | pydate d => rw [formatValue] at hval; exact absurd hval (by simp)
          | pyint n => rw [formatValue] at hval; exact absurd hval (by simp)
          | pybool b => rw [formatValue] at hval; exact absurd hval (by simp)
          | pyother r => rw [formatValue] at hval; exact absurd hval (by simp)
        rw [hp]
        simp only [hval]
        simp
      | some val =>
        have hp : jsonPiece cols row h =
            some (if isDataset cell then val else "\"" ++ h ++ "\":" ++ val) := by
          cases cell with
          | pyds nc nr =>
            rw [jsonPiece_ds hcell]
            rw [formatValue] at hval
            rw [hval]
            simp [isDataset]
          | pynone =>
            rw [jsonPiece_scalar hcell (by simp [isDataset])]
            rw [hval]
            simp [isDataset]
          | pystr s =>
            rw [jsonPiece_scalar hcell (by simp [isDataset])]
            rw [hval]
            simp [isDataset]
          | pydate d =>
            rw [jsonPiece_scalar hcell (by simp [isDataset])]
            rw [hval]
            simp [isDataset]
          | pyint n =>
            rw [jsonPiece_scalar hcell (by simp [isDataset])]
            rw [hval]
            simp [isDataset]
          | pybool b =>
            rw [jsonPiece_scalar hcell (by simp [isDataset])]
            rw [hval]
            simp [isDataset]
          | pyother r =>
            rw [jsonPiece_scalar hcell (by simp [isDataset])]
            rw [hval]
            simp [isDataset]
        rw [hp]
        simp only [hval]
        cases hs with
        | nil =>
          have hcomma : ¬ (colCount + 1 < cols.length) := by
            simp at hlen
            omega
          rw [jsonCells]
          simp only [if_neg hcomma, mapOpt_nil, Option.map_some, Option.bind_eq_bind,
            Option.some_bind, Option.map_map]
          simp [joinComma_single]
        | cons h' hs' =>
          have hcomma : colCount + 1 < cols.length := by
            simp at hlen
            omega
          have htail := ih (colCount + 1) (by simp at hlen ⊢; omega)
          rw [htail]
          cases hmtail : mapOpt (jsonPiece cols row) (h' :: hs') with
          | none => simp [hmtail, if_pos hcomma]
          | some ps =>
            have hpslen : ps.length = hs'.length + 1 := by
              simpa using mapOpt_length hmtail
            have hpsne : ps ≠ [] := by
              intro hcontra
              rw [hcontra] at hpslen
              simp at hpslen
            cases hds : isDataset cell <;>
              simp [hmtail, if_pos hcomma, hds, joinComma_cons _ hpsne, String.append_assoc]

theorem jsonRows_eq (cols : List String) :
    ∀ (rows : List (List PyObject)) (rowIdx totalRows : Nat),
      rowIdx + rows.length = totalRows + 1 →
      jsonRows cols rows rowIdx totalRows =
        (mapOpt (specRow cols) rows).map joinComma := by
  intro rows
  induction rows with
  | nil =>
    intro rowIdx totalRows hlen
    rw [jsonRows]
    simp [mapOpt_nil, joinComma_nil]
  | cons row rest ih =>
    intro rowIdx totalRows hlen
    rw [jsonRows, mapOpt_cons]
    rw [jsonCells_eq cols row cols 0 (by simp)]
    cases hcells : mapOpt (jsonPiece cols row) cols with
    | none => simp [specRow, hcells]
    | some ps =>
      cases rest with
      | nil =>
        have hcomma : ¬ (rowIdx < totalRows) := by
          simp at hlen
          omega
        rw [jsonRows]
        simp [specRow, hcells, if_neg hcomma, mapOpt_nil, joinComma_single]
      | cons row' rest' =>
        have hcomma : rowIdx < totalRows := by
          simp at hlen
          omega
        have htail := ih (rowIdx + 1) totalRows (by simp at hlen ⊢; omega)
        rw [htail]
        cases hmtail : mapOpt (specRow cols) (row' :: rest') with
        | none => simp [specRow, hcells, hmtail, if_pos hcomma]
        | some rs =>
          have hrsne : rs ≠ [] := by
            have hl := mapOpt_length hmtail
            intro hco
            rw [hco] at hl
            simp at hl
          simp [specRow, hcells, hmtail, if_pos hcomma, joinComma_cons _ hrsne,
            String.append_assoc]

/-- The JSON Converter equals its reference form: the optional brace/root
wrapping around the bracketed, comma-joined row objects. -/
theorem toJsonAux_eq_specBody (cols : List String) (rows : List (List PyObject))
    (root : Option String) (isRoot : Bool) :
    toJsonAux cols rows root isRoot =
      (specBody cols rows).map (fun body =>
        (if isRoot && root.isSome then "\x7b" else "") ++
        (match root with
         | some r => "\"" ++ r ++ "\":["
         | none => "[") ++ body ++ "]" ++
        (if isRoot && root.isSome then "\x7d" else "")) := by
  rw [toJsonAux.eq_def]
  rw [jsonRows_eq cols rows 1 rows.length (by omega)]
  rw [specBody]
  cases hm : mapOpt (specRow cols) rows with
  | none => simp
  | some rs => simp [String.append_assoc]

theorem isSome_map {α β : Type} (f : α → β) (o : Option α) :
    (o.map f).isSome = o.isSome := by
  cases o <;> simp

/-- On a valid dataset the JSON Converter always succeeds. -/
theorem toJsonAux_isSome :
    ∀ (N : Nat) (cols : List String) (rows : List (List PyObject)),
      sizeOf rows ≤ N → validRows cols rows = true →
      ∀ (root : Option String) (isRoot : Bool), (toJsonAux cols rows root isRoot).isSome := by
  intro N
  induction N with
  | zero =>
    intro cols rows hsz _
    have := sizeOf_list_pos rows
    omega
  | succ n ih =>
    intro cols rows hsz hvalid root isRoot
    rw [toJsonAux_eq_specBody, isSome_map, specBody, isSome_map]
    apply mapOpt_isSome
    intro row hrow
    rw [specRow, isSome_map]
    apply mapOpt_isSome
    intro h hh
    have hlen := (validRows_row hvalid hrow).1
    have hlook := pyLookup_isSome hh hlen
    cases hcell : pyLookup cols row h with
    | none =>
      rw [hcell] at hlook
      simp at hlook
    | some cell =>
      have hvcell : validObj cell = true :=
        validCells_cell (validRows_row hvalid hrow).2 (pyLookup_mem hcell)
      cases cell with
      | pyds nc nr =>
        rw [jsonPiece_ds hcell]
        apply ih nc nr ?_ (validObj_ds hvcell) (some h) false
        have e1 : sizeOf nr < sizeOf (PyObject.pyds nc nr) := by
          have := sizeOf_list_pos nc
          solve | (simp; omega) | simp | omega
        have e2 := List.sizeOf_lt_of_mem (pyLookup_mem hcell)
        have e3 := List.sizeOf_lt_of_mem hrow
        omega
      | pynone =>
        rw [jsonPiece_scalar hcell (by simp [isDataset]), isSome_map, formatValue]
        simp
      | pystr s =>
        rw [jsonPiece_scalar hcell (by simp [isDataset]), isSome_map, formatValue]
        simp
      | pydate d =>
        rw [jsonPiece_scalar hcell (by simp [isDataset]), isSome_map, formatValue]
        simp
      | pyint m =>
        rw [jsonPiece_scalar hcell (by simp [isDataset]), isSome_map, formatValue]
        simp
      | pybool b =>
        rw [jsonPiece_scalar hcell (by simp [isDataset]), isSome_map, formatValue]
        simp
      | pyother r =>
        rw [jsonPiece_scalar hcell (by simp [isDataset]), isSome_map, formatValue]
        simp

/-!
The dict comprehension of the Object Converter equals its reference form:
one entry per distinct column name in first-occurrence order.
-/

theorem dictInsert_update_same (g : String → Option Obj) :
    ∀ {acc : List (String × Obj)} {h : String} {o : Obj},
      (∀ p ∈ acc, g p.1 = some p.2) → g h = some o → h ∈ acc.map Prod.fst →
      dictInsert acc h o = acc := by
  intro acc
  induction acc with
  | nil => intro h o _ _ hmem; simp at hmem
  | cons p rest ih =>
    intro h o hacc hg hmem
    obtain ⟨k', v'⟩ := p
    rw [dictInsert]
    by_cases hk : k' = h
    · rw [if_pos hk]
      have hv : g k' = some v' := hacc (k', v') (by simp)
      rw [hk, hg] at hv
      simp at hv
      rw [hv]
    · rw [if_neg hk]
      have hmem' : h ∈ rest.map Prod.fst := by
        rcases List.mem_map.mp hmem with ⟨p, hp, hfst⟩
        rcases List.mem_cons.mp hp with hp | hp
        · subst hp
          simp at hfst
          exact absurd hfst hk
        · exact List.mem_map.mpr ⟨p, hp, hfst⟩
      rw [ih (fun q hq => hacc q (by simp [hq])) hg hmem']

theorem dictInsert_append :
    ∀ {acc : List (String × Obj)} {h : String} {o : Obj},
      h ∉ acc.map Prod.fst → dictInsert acc h o = acc ++ [(h, o)] := by
  intro acc
  induction acc with
  | nil => intro h o _; rw [dictInsert]; simp
  | cons p rest ih =>
    intro h o hmem
    obtain ⟨k', v'⟩ := p
    rw [dictInsert]
    have hk : ¬ (k' = h) := by
      intro hcontra
      exact hmem (by simp [hcontra])
    rw [if_neg hk]
    have : h ∉ rest.map Prod.fst := by
      intro hcontra
      exact hmem (by simp; right; simpa using hcontra)
    rw [ih this]
    simp

theorem dedupFirstAux_congr :
    ∀ (l seen₁ seen₂ : List String),
      (∀ x, x ∈ seen₁ ↔ x ∈ seen₂) →
      dedupFirstAux l seen₁ = dedupFirstAux l seen₂ := by
  intro l
  induction l with
  | nil => intro seen₁ seen₂ _; rw [dedupFirstAux, dedupFirstAux]
  | cons h hs ih =>
    intro seen₁ seen₂ hiff
    rw [dedupFirstAux, dedupFirstAux]
    by_cases hmem : h ∈ seen₁
    · rw [if_pos hmem, if_pos ((hiff h).mp hmem)]
      exact ih seen₁ seen₂ hiff
    · rw [if_neg hmem, if_neg (fun hc => hmem ((hiff h).mpr hc))]
      exact congrArg (List.cons h)
        (ih (h :: seen₁) (h :: seen₂) (fun x => by simp [List.mem_cons, hiff x]))

theorem dedupFirstAux_sub :
    ∀ {l seen : List String} {x : String}, x ∈ dedupFirstAux l seen → x ∈ l := by
  intro l
  induction l with
  | nil => intro seen x h; rw [dedupFirstAux] at h; simp at h
  | cons a as ih =>
    intro seen x h
    rw [dedupFirstAux] at h
    by_cases hmem : a ∈ seen
    · rw [if_pos hmem] at h
      simp [ih h]
    · rw [if_neg hmem] at h
      rcases List.mem_cons.mp h with h | h
      · simp [h]
      · simp [ih h]

theorem objRowFold_eq (cols : List String) (row : List PyObject) :
    ∀ (headers : List String) (acc : List (String × Obj)),
      (∀ p ∈ acc, ((pyLookup cols row p.1).bind formatObject) = some p.2) →
      objRowFold cols row headers acc =
        (mapOpt (fun h => ((pyLookup cols row h).bind formatObject).map (fun o => (h, o)))
            (dedupFirstAux headers (acc.map Prod.fst))).map (fun l => acc ++ l) := by
  intro headers
  induction headers with
  | nil =>
    intro acc hacc
    rw [objRowFold, dedupFirstAux]
    simp [mapOpt_nil]
  | cons h hs ih =>
    intro acc hacc
    rw [objRowFold, dedupFirstAux]
    cases hcell : pyLookup cols row h with
    | none =>
      have hnotin : h ∉ acc.map Prod.fst := by
        intro hmem
        rcases List.mem_map.mp hmem with ⟨p, hp, hfst⟩
        have := hacc p hp
        rw [hfst, hcell] at this
        simp at this
      rw [if_neg hnotin, mapOpt_cons]
      simp [hcell]
    | some cell =>
      cases hfmt : formatObject cell with
      | none =>
        have hnotin : h ∉ acc.map Prod.fst := by
          intro hmem
          rcases List.mem_map.mp hmem with ⟨p, hp, hfst⟩
          have := hacc p hp
          rw [hfst, hcell] at this
          simp [hfmt] at this
        rw [if_neg hnotin, mapOpt_cons]
        simp [hcell, hfmt]
      | some o =>
        have hg : ((pyLookup cols row h).bind formatObject) = some o := by
          rw [hcell]
          simpa using hfmt
        simp only [hfmt]
        by_cases hmem : h ∈ acc.map Prod.fst
        · rw [if_pos hmem]
          rw [dictInsert_update_same (fun k => (pyLookup cols row k).bind formatObject)
            hacc hg hmem]
          exact ih acc hacc
        · rw [if_neg hmem, mapOpt_cons, hg]
          rw [dictInsert_append hmem]
          rw [ih (acc ++ [(h, o)]) ?hacc']
          case hacc' =>
            intro p hp
            rcases List.mem_append.mp hp with hp | hp
            · exact hacc p hp
            · simp at hp
              rw [hp]
              exact hg
          have hseen : dedupFirstAux hs ((acc ++ [(h, o)]).map Prod.fst) =
              dedupFirstAux hs (h :: acc.map Prod.fst) := by
            apply dedupFirstAux_congr
            intro x
            simp
            tauto
          rw [hseen]
          cases hrest : mapOpt
              (fun h => ((pyLookup cols row h).bind formatObject).map (fun o => (h, o)))
              (dedupFirstAux hs (h :: acc.map Prod.fst)) with
          | none => simp
          | some l => simp

/-- The dict comprehension for one full row equals the reference row
mapping. -/
theorem objRowFold_spec (cols : List String) (row : List PyObject) :
    objRowFold cols row cols [] = objRowSpec cols row := by
  rw [objRowFold_eq cols row cols [] (by simp), objRowSpec, dedupFirst]
  have : (([] : List (String × Obj)).map Prod.fst) = [] := rfl
  rw [this]
  cases hm : mapOpt (fun h => ((pyLookup cols row h).bind formatObject).map (fun o => (h, o)))
      (dedupFirstAux cols []) with
  | none => simp
  | some l => simp

/-- `_to_jsonobject` equals its reference form: one reference row mapping
per dataset row. -/
theorem objRows_eq (cols : List String) :
    ∀ (rows : List (List PyObject)),
      objRows cols rows = mapOpt (objRowSpec cols) rows := by
  intro rows
  induction rows with
  | nil => rw [objRows, mapOpt_nil]
  | cons row rest ih =>
    rw [objRows, mapOpt_cons, objRowFold_spec, ih]
    cases hd : objRowSpec cols row with
    | none => simp
    | some d =>
      cases hrest : mapOpt (objRowSpec cols) rest with
      | none => simp
      | some ds => simp

theorem formatObject_scalar {v : PyObject} (hnds : isDataset v = false) :
    formatObject v = some (.scalar v) := by
  cases v <;> simp_all [isDataset, formatObject]

theorem formatObject_table {nc : List String} {nr : List (List PyObject)}
    {t : List (List (String × Obj))} (h : objRows nc nr = some t) :
    formatObject (.pyds nc nr) = some (.table t) := by
  rw [formatObject, h]

/-- On a valid dataset the Object Converter always succeeds. -/
theorem objRows_isSome :
    ∀ (N : Nat) (cols : List String) (rows : List (List PyObject)),
      sizeOf rows ≤ N → validRows cols rows = true → (objRows cols rows).isSome := by
  intro N
  induction N with
  | zero =>
    intro cols rows hsz _
    have := sizeOf_list_pos rows
    omega
  | succ n ih =>
    intro cols rows hsz hvalid
    rw [objRows_eq]
    apply mapOpt_isSome
    intro row hrow
    rw [objRowSpec]
    apply mapOpt_isSome
    intro h hh
    rw [dedupFirst] at hh
    have hhcols : h ∈ cols := dedupFirstAux_sub hh
    rw [isSome_map]
    have hlen := (validRows_row hvalid hrow).1
    have hlook := pyLookup_isSome hhcols hlen
    cases hcell : pyLookup cols row h with
    | none =>
      rw [hcell] at hlook
      simp at hlook
    | some cell =>
      have hvcell : validObj cell = true :=
        validCells_cell (validRows_row hvalid hrow).2 (pyLookup_mem hcell)
      cases cell with
      | pyds nc nr =>
        have hnested : (objRows nc nr).isSome := by
          apply ih nc nr ?_ (validObj_ds hvcell)
          have e1 : sizeOf nr < sizeOf (PyObject.pyds nc nr) := by
            have := sizeOf_list_pos nc
            solve | (simp; omega) | simp | omega
          have e2 := List.sizeOf_lt_of_mem (pyLookup_mem hcell)
          have e3 := List.sizeOf_lt_of_mem hrow
          omega
        cases hobj : objRows nc nr with
        | none =>
          rw [hobj] at hnested
          simp at hnested
        | some t => simp [hcell, formatObject_table hobj]
      | pynone => simp [hcell, formatObject_scalar (show isDataset .pynone = false by simp [isDataset])]
      | pystr s' => simp [hcell, formatObject_scalar (show isDataset (.pystr s') = false by simp [isDataset])]
      | pydate d => simp [hcell, formatObject_scalar (show isDataset (.pydate d) = false by simp [isDataset])]
      | pyint m => simp [hcell, formatObject_scalar (show isDataset (.pyint m) = false by simp [isDataset])]
      | pybool b => simp [hcell, formatObject_scalar (show isDataset (.pybool b) = false by simp [isDataset])]
      | pyother r => simp [hcell, formatObject_scalar (show isDataset (.pyother r) = false by simp [isDataset])]

/-- On a valid cell value, object-mode formatting always succeeds. -/
theorem formatObject_isSome {v : PyObject} (hvalid : validObj v = true) :
    (formatObject v).isSome := by
  cases v with
  | pyds nc nr =>
    have hnested := objRows_isSome (sizeOf nr) nc nr (le_refl _) (validObj_ds hvalid)
    cases hobj : objRows nc nr with
    | none =>
      rw [hobj] at hnested
      simp at hnested
    | some t => simp [formatObject_table hobj]
  | pynone => simp [formatObject_scalar (show isDataset .pynone = false by simp [isDataset])]
  | pystr s => simp [formatObject_scalar (show isDataset (.pystr s) = false by simp [isDataset])]
  | pydate d => simp [formatObject_scalar (show isDataset (.pydate d) = false by simp [isDataset])]
  | pyint m => simp [formatObject_scalar (show isDataset (.pyint m) = false by simp [isDataset])]
  | pybool b => simp [formatObject_scalar (show isDataset (.pybool b) = false by simp [isDataset])]
  | pyother r => simp [formatObject_scalar (show isDataset (.pyother r) = false by simp [isDataset])]

/-! Totality of the XML path on valid datasets. -/

theorem xmlCells_isSome (cols : List String) (row : List PyObject)
    (hlen : row.length = cols.length) :
    ∀ (headers : List String) (x : NanoXML),
      (∀ h ∈ headers, h ∈ cols) → (xmlCells cols row headers x).isSome := by
  intro headers
  induction headers with
  | nil => intro x _; rw [xmlCells]; simp
  | cons h hs ih =>
    intro x hsub
    rw [xmlCells]
    have hlook := pyLookup_isSome (hsub h (by simp)) hlen
    cases hcell : pyLookup cols row h with
    | none =>
      rw [hcell] at hlook
      simp at hlook
    | some v => exact ih _ (fun h' hh' => hsub h' (by simp [hh']))

theorem xmlRows_isSome (cols : List String) :
    ∀ (rows : List (List PyObject)) (element : String) (x : NanoXML),
      validRows cols rows = true → (xmlRows cols rows element x).isSome := by
  intro rows
  induction rows with
  | nil => intro element x _; rw [xmlRows]; simp
  | cons row rest ih =>
    intro element x hvalid
    rw [xmlRows]
    have hlen := (validRows_row hvalid (show row ∈ row :: rest by simp)).1
    have hcells := xmlCells_isSome cols row hlen cols (x.addElement element) (fun _ hh => hh)
    cases hc : xmlCells cols row cols (x.addElement element) with
    | none =>
      rw [hc] at hcells
      simp at hcells
    | some x' => exact ih element _ (validRows_tail hvalid)

theorem to_xml_isSome {cols : List String} {rows : List (List PyObject)}
    (hvalid : validRows cols rows = true) (root element indent : String) :
    (to_xml cols rows root element indent).isSome := by
  rw [to_xml, isSome_map]
  exact xmlRows_isSome cols rows element _ hvalid

/-! JSON-safety of the rendered auxiliary strings. -/

theorem jsonCleanStr_append (a b : String) :
    jsonCleanStr (a ++ b) = (jsonCleanStr a && jsonCleanStr b) := by
  simp [jsonCleanStr, String.data_append, List.all_append]

theorem digitChar_safe (m : Nat) : jsonSafeChar (digitChar m) = true := by
  unfold digitChar
  split <;> decide

theorem natReprAux_chars :
    ∀ (fuel n : Nat) (acc : List Char) (c : Char), c ∈ natReprAux fuel n acc →
      (∃ m, c = digitChar m) ∨ c ∈ acc := by
  intro fuel
  induction fuel with
  | zero => intro n acc c hc; rw [natReprAux] at hc; exact Or.inr hc
  | succ f ih =>
    intro n acc c hc
    rw [natReprAux] at hc
    by_cases hn : n < 10
    · rw [if_pos hn] at hc
      rcases List.mem_cons.mp hc with hc | hc
      · exact Or.inl ⟨n, hc⟩
      · exact Or.inr hc
    · rw [if_neg hn] at hc
      rcases ih (n / 10) (digitChar (n % 10) :: acc) c hc with hd | hd
      · exact Or.inl hd
      · rcases List.mem_cons.mp hd with hd | hd
        · exact Or.inl ⟨n % 10, hd⟩
        · exact Or.inr hd

theorem natRepr_clean (n : Nat) : jsonCleanStr (natRepr n) = true := by
  rw [natRepr, jsonCleanStr]
  simp only [List.all_eq_true]
  intro c hc
  rcases natReprAux_chars (n + 1) n [] c hc with ⟨m, hm⟩ | hd
  · rw [hm]
    exact digitChar_safe m
  · simp at hd

theorem intRepr_clean (n : Int) : jsonCleanStr (intRepr n) = true := by
  rw [intRepr]
  by_cases hn : n < 0
  · rw [if_pos hn, jsonCleanStr_append, natRepr_clean]
    simp [jsonCleanStr, jsonSafeChar]
  · rw [if_neg hn]
    exact natRepr_clean _

theorem padNum_clean (w n : Nat) : jsonCleanStr (padNum w n) = true := by
  have hz : jsonCleanStr (String.mk (List.replicate (w - (natRepr n).length) '0')) = true := by
    rw [jsonCleanStr]
    simp only [List.all_eq_true]
    intro c hc
    rcases List.eq_of_mem_replicate hc with rfl
    decide
  rw [padNum, jsonCleanStr_append, hz, natRepr_clean]
  decide

theorem offsetXXX_clean (off : Int) : jsonCleanStr (offsetXXX off) = true := by
  rw [offsetXXX]
  by_cases h0 : off = 0
  · rw [if_pos h0]
    decide
  · rw [if_neg h0]
    by_cases hneg : off < 0
    · rw [if_pos hneg]
      simp only [jsonCleanStr_append, padNum_clean, Bool.and_true, Bool.true_and]
      all_goals decide
    · rw [if_neg hneg]
      simp only [jsonCleanStr_append, padNum_clean, Bool.and_true, Bool.true_and]
      all_goals decide

theorem formatDate_clean (d : PyDate) : jsonCleanStr (formatDate d) = true := by
  rw [formatDate]
  simp only [jsonCleanStr_append, padNum_clean, offsetXXX_clean, Bool.and_true, Bool.true_and]
  all_goals decide

/-! Structural facts about the JSON value of a dataset. -/

/-- The JSON value a single cell contributes at column `h` (null if the
lookup fails, which never happens on valid datasets). -/
def cellJson (cols : List String) (row : List PyObject) (h : String) : Json :=
  match pyLookup cols row h with
  | none => Json.null
  | some cell => jsonOfCell cell

theorem jsonRowMembers_eq_map (cols : List String) (row : List PyObject) :
    ∀ (hs : List String),
      jsonRowMembers cols row hs = hs.map (fun h => (h, cellJson cols row h)) := by
  intro hs
  induction hs with
  | nil => rw [jsonRowMembers]; simp
  | cons h hs ih =>
    rw [jsonRowMembers, ih]
    simp only [List.map_cons, List.cons.injEq, and_true]
    rw [cellJson]
    cases hcell : pyLookup cols row h <;> simp

theorem jsonTable_map (cols : List String) :
    ∀ (rows : List (List PyObject)),
      jsonTable cols rows = rows.map (fun row => Json.obj (jsonRowMembers cols row cols)) := by
  intro rows
  induction rows with
  | nil => rw [jsonTable]; simp
  | cons row rest ih => rw [jsonTable, ih]; simp

theorem renderList_map : ∀ (l : List Json), renderList l = l.map renderJson := by
  intro l
  induction l with
  | nil => rw [renderList]; simp
  | cons j js ih => rw [renderList, ih]; simp

theorem renderMembers_map :
    ∀ (ms : List (String × Json)),
      renderMembers ms = ms.map (fun p => "\"" ++ p.1 ++ "\":" ++ renderJson p.2) := by
  intro ms
  induction ms with
  | nil => rw [renderMembers]; simp
  | cons p rest ih =>
    obtain ⟨k, v⟩ := p
    rw [renderMembers, ih]
    simp

theorem goodList_iff :
    ∀ {l : List Json}, goodList l = true ↔ ∀ j ∈ l, goodJson j = true := by
  intro l
  induction l with
  | nil => rw [goodList]; simp
  | cons j js ih =>
    rw [goodList]
    simp only [Bool.and_eq_true, ih]
    constructor
    · intro h j' hj'
      rcases List.mem_cons.mp hj' with hj' | hj'
      · subst hj'; exact h.1
      · exact h.2 j' hj'
    · intro h
      exact ⟨h j (by simp), fun j' hj' => h j' (by simp [hj'])⟩

theorem goodMembers_iff :
    ∀ {ms : List (String × Json)},
      goodMembers ms = true ↔
        ∀ p ∈ ms, jsonCleanStr p.1 = true ∧ goodJson p.2 = true := by
  intro ms
  induction ms with
  | nil => rw [goodMembers]; simp
  | cons p rest ih =>
    obtain ⟨k, v⟩ := p
    rw [goodMembers]
    simp only [Bool.and_eq_true, ih]
    constructor
    · intro h q hq
      rcases List.mem_cons.mp hq with hq | hq
      · subst hq; exact ⟨h.1.1, h.1.2⟩
      · exact h.2 q hq
    · intro h
      exact ⟨⟨(h (k, v) (by simp)).1, (h (k, v) (by simp)).2⟩,
        fun q hq => h q (by simp [hq])⟩

theorem mapOpt_congr_some {α β : Type} {f : α → Option β} {g : α → β} :
    ∀ {l : List α}, (∀ a ∈ l, f a = some (g a)) → mapOpt f l = some (l.map g) := by
  intro l
  induction l with
  | nil => intro _; simp [mapOpt_nil]
  | cons a as ih =>
    intro h
    rw [mapOpt_cons, h a (by simp), ih (fun x hx => h x (by simp [hx]))]
    simp

theorem cellJson_some {cols : List String} {row : List PyObject} {h : String}
    {cell : PyObject} (hcell : pyLookup cols row h = some cell) :
    cellJson cols row h = jsonOfCell cell := by
  rw [cellJson, hcell]

theorem key_bracket (h X : String) :
    "\"" ++ h ++ "\":[" ++ X ++ "]" = "\"" ++ h ++ "\":" ++ ("[" ++ X ++ "]") := by
  have e : "\":" ++ ("[" ++ (X ++ "]")) = "\":[" ++ (X ++ "]") := by
    rw [← String.append_assoc]
    rfl
  simp [String.append_assoc, e]

/-- On a clean dataset, the reference body is the standard rendering of the
JSON array of row objects. -/
theorem specBody_renders :
    ∀ (N : Nat) (cols : List String) (rows : List (List PyObject)),
      sizeOf rows ≤ N → cleanTable cols rows = true →
      specBody cols rows = some (joinComma (renderList (jsonTable cols rows))) := by
  intro N
  induction N with
  | zero =>
    intro cols rows hsz _
    have := sizeOf_list_pos rows
    omega
  | succ n ih =>
    intro cols rows hsz hclean
    have hrows := (cleanTable_split hclean).2
    rw [specBody]
    have hrowfact : ∀ row ∈ rows, specRow cols row =
        some (renderJson (Json.obj (jsonRowMembers cols row cols))) := by
      intro row hrow
      have hlen := (cleanRows_row hrows hrow).1
      have hcells := (cleanRows_row hrows hrow).2
      rw [specRow]
      have hpieces : ∀ h ∈ cols, jsonPiece cols row h =
          some ("\"" ++ h ++ "\":" ++ renderJson (cellJson cols row h)) := by
        intro h hh
        have hlook := pyLookup_isSome hh hlen
        cases hcell : pyLookup cols row h with
        | none =>
          rw [hcell] at hlook
          simp at hlook
        | some cell =>
          have hclcell : cleanObj cell = true := cleanCells_cell hcells (pyLookup_mem hcell)
          rw [cellJson_some hcell]
          cases cell with
          | pyds nc nr =>
            rw [jsonPiece_ds hcell, toJsonAux_eq_specBody]
            rw [cleanObj] at hclcell
            have hsz' : sizeOf nr ≤ n := by
              have e1 : sizeOf nr < sizeOf (PyObject.pyds nc nr) := by
                have := sizeOf_list_pos nc
                solve | (simp; omega) | simp | omega
              have e2 := List.sizeOf_lt_of_mem (pyLookup_mem hcell)
              have e3 := List.sizeOf_lt_of_mem hrow
              omega
            rw [ih nc nr hsz' hclcell]
            rw [jsonOfCell, renderJson]
            simp only [Option.map_some', Option.some.injEq, Option.isSome_some,
              Bool.false_and, Bool.and_false, if_false, Bool.false_eq_true,
              String.append_empty, String.empty_append]
            rw [key_bracket]
          | pynone =>
            rw [jsonPiece_scalar hcell (by simp [isDataset]), formatValue, jsonOfCell, renderJson]
            simp
          | pystr s' =>
            rw [jsonPiece_scalar hcell (by simp [isDataset]), formatValue, jsonOfCell, renderJson]
            simp
          | pydate d =>
            rw [jsonPiece_scalar hcell (by simp [isDataset]), formatValue, jsonOfCell, renderJson]
            simp
          | pyint m =>
            rw [jsonPiece_scalar hcell (by simp [isDataset]), formatValue, jsonOfCell, renderJson]
            simp
          | pybool b =>
            rw [cleanObj] at hclcell
            simp at hclcell
          | pyother r =>
            rw [cleanObj] at hclcell
            simp at hclcell
      rw [mapOpt_congr_some hpieces]
      rw [renderJson, renderMembers_map, jsonRowMembers_eq_map]
      simp only [Option.map_some', Option.some.injEq, List.map_map]
      rfl
    rw [mapOpt_congr_some hrowfact]
    rw [jsonTable_map, renderList_map]
    simp only [Option.map_some', Option.some.injEq, List.map_map]
    rfl

/-- On a clean dataset the JSON value of the dataset is `good`: its
rendering is genuine JSON text. -/
theorem jsonTable_good :
    ∀ (N : Nat) (cols : List String) (rows : List (List PyObject)),
      sizeOf rows ≤ N → cleanTable cols rows = true →
      goodList (jsonTable cols rows) = true := by
  intro N
  induction N with
  | zero =>
    intro cols rows hsz _
    have := sizeOf_list_pos rows
    omega
  | succ n ih =>
    intro cols rows hsz hclean
    have hcols := (cleanTable_split hclean).1
    have hrows := (cleanTable_split hclean).2
    rw [jsonTable_map, goodList_iff]
    intro j hj
    rcases List.mem_map.mp hj with ⟨row, hrow, rfl⟩
    rw [goodJson, goodMembers_iff]
    intro p hp
    rw [jsonRowMembers_eq_map] at hp
    rcases List.mem_map.mp hp with ⟨h, hh, rfl⟩
    refine ⟨by simpa using List.all_eq_true.mp hcols h hh, ?_⟩
    have hlen := (cleanRows_row hrows hrow).1
    have hlook := pyLookup_isSome hh hlen
    cases hcell : pyLookup cols row h with
    | none =>
      rw [hcell] at hlook
      simp at hlook
    | some cell =>
      rw [cellJson_some hcell]
      have hclcell := cleanCells_cell (cleanRows_row hrows hrow).2 (pyLookup_mem hcell)
      cases cell with
      | pyds nc nr =>
        rw [jsonOfCell, goodJson]
        rw [cleanObj] at hclcell
        apply ih nc nr ?_ hclcell
        have e1 : sizeOf nr < sizeOf (PyObject.pyds nc nr) := by
          have := sizeOf_list_pos nc
          solve | (simp; omega) | simp | omega
        have e2 := List.sizeOf_lt_of_mem (pyLookup_mem hcell)
        have e3 := List.sizeOf_lt_of_mem hrow
        omega
      | pynone => rw [jsonOfCell, goodJson]
      | pystr s' =>
        rw [jsonOfCell, goodJson]
        rw [cleanObj] at hclcell
        exact hclcell
      | pydate d =>
        rw [jsonOfCell, goodJson]
        exact formatDate_clean d
      | pyint m => rw [jsonOfCell, goodJson]
      | pybool b =>
        rw [cleanObj] at hclcell
        simp at hclcell
      | pyother r =>
        rw [cleanObj] at hclcell
        simp at hclcell

theorem jsonTable_length (cols : List String) (rows : List (List PyObject)) :
    (jsonTable cols rows).length = rows.length := by
  rw [jsonTable_map]
  simp

theorem jsonRowMembers_keys (cols : List String) (row : List PyObject) :
    (jsonRowMembers cols row cols).map Prod.fst = cols := by
  rw [jsonRowMembers_eq_map, List.map_map]
  have e : (Prod.fst ∘ fun h => (h, cellJson cols row h)) = fun h => h := rfl
  rw [e]
  exact List.map_id' cols

/-! The first character of a rendered integer is a minus sign or a digit,
never a quote. -/

theorem natReprAux_head :
    ∀ (fuel n : Nat) (acc : List Char), n < fuel →
      ∃ m cs, natReprAux fuel n acc = digitChar m :: cs := by
  intro fuel
  induction fuel with
  | zero => intro n acc h; omega
  | succ f ih =>
    intro n acc h
    rw [natReprAux]
    by_cases hn : n < 10
    · rw [if_pos hn]
      exact ⟨n, acc, rfl⟩
    · rw [if_neg hn]
      apply ih
      have : n / 10 < n := Nat.div_lt_self (by omega) (by omega)
      omega

theorem digitChar_ne_quote (m : Nat) : digitChar m ≠ '"' := by
  unfold digitChar
  split <;> decide

theorem intRepr_head_not_quote (n : Int) :
    ∀ (l : List Char), (intRepr n).data ≠ '"' :: l := by
  intro l
  rw [intRepr]
  by_cases hn : n < 0
  · rw [if_pos hn, String.data_append]
    have e : ("-" : String).data = ['-'] := rfl
    rw [e]
    intro hcontra
    have hh := congrArg List.head? hcontra
    simp at hh
  · rw [if_neg hn, natRepr]
    rcases natReprAux_head (n.toNat + 1) n.toNat [] (by omega) with ⟨m, cs, heq⟩
    intro hcontra
    have hdata : natReprAux (n.toNat + 1) n.toNat [] = '"' :: l := hcontra
    rw [heq] at hdata
    have hh : digitChar m = '"' := by
      have := congrArg List.head? hdata
      simpa using this
    exact absurd hh (digitChar_ne_quote m)

/-! Deduplication facts. -/

theorem dedupFirstAux_mem :
    ∀ (l seen : List String) (x : String),
      x ∈ dedupFirstAux l seen ↔ (x ∈ l ∧ x ∉ seen) := by
  intro l
  induction l with
  | nil => intro seen x; rw [dedupFirstAux]; simp
  | cons h hs ih =>
    intro seen x
    rw [dedupFirstAux]
    by_cases hmem : h ∈ seen
    · rw [if_pos hmem, ih]
      constructor
      · intro hx
        exact ⟨by simp [hx.1], hx.2⟩
      · intro hx
        rcases List.mem_cons.mp hx.1 with hx1 | hx1
        · subst hx1; exact absurd hmem hx.2
        · exact ⟨hx1, hx.2⟩
    · rw [if_neg hmem]
      constructor
      · intro hx
        rcases List.mem_cons.mp hx with hx | hx
        · subst hx; exact ⟨by simp, hmem⟩
        · have := (ih (h :: seen) x).mp hx
          exact ⟨by simp [this.1], fun hc => this.2 (by simp [hc])⟩
      · intro hx
        rcases List.mem_cons.mp hx.1 with hx1 | hx1
        · subst hx1; simp
        · by_cases hxh : x = h
          · subst hxh; simp
          · right
            exact (ih (h :: seen) x).mpr ⟨hx1, by simp [hxh, hx.2]⟩

theorem dedupFirst_mem (l : List String) (x : String) :
    x ∈ dedupFirst l ↔ x ∈ l := by
  rw [dedupFirst, dedupFirstAux_mem]
  simp

theorem dedupFirstAux_of_nodup :
    ∀ (l seen : List String), l.Nodup → (∀ x ∈ l, x ∉ seen) →
      dedupFirstAux l seen = l := by
  intro l
  induction l with
  | nil => intro seen _ _; rw [dedupFirstAux]
  | cons h hs ih =>
    intro seen hnodup hdisj
    rw [dedupFirstAux, if_neg (hdisj h (by simp))]
    rw [ih (h :: seen) (List.Nodup.of_cons hnodup) ?_]
    intro x hx
    simp only [List.mem_cons, not_or]
    exact ⟨fun hc => (List.nodup_cons.mp hnodup).1 (hc ▸ hx), hdisj x (by simp [hx])⟩

theorem dedupFirst_of_nodup {l : List String} (h : l.Nodup) : dedupFirst l = l :=
  dedupFirstAux_of_nodup l [] h (by simp)

/-! More `mapOpt` combinator lemmas. -/

theorem mapOpt_congr {α β : Type} {f g : α → Option β} :
    ∀ {l : List α}, (∀ a ∈ l, f a = g a) → mapOpt f l = mapOpt g l := by
  intro l
  induction l with
  | nil => intro _; simp [mapOpt_nil]
  | cons a as ih =>
    intro h
    rw [mapOpt_cons, mapOpt_cons, h a (by simp), ih (fun x hx => h x (by simp [hx]))]

theorem mapOpt_forall₂_eq {α α' β : Type} {f : α → Option β} {g : α' → Option β} :
    ∀ {l : List α} {l' : List α'},
      List.Forall₂ (fun a b => f a = g b) l l' → mapOpt f l = mapOpt g l' := by
  intro l l' hfa
  induction hfa with
  | nil => simp [mapOpt_nil]
  | cons hab _ ih => rw [mapOpt_cons, mapOpt_cons, hab, ih]

theorem mapOpt_forall₂_of_some {α β : Type} {f : α → Option β} :
    ∀ {l : List α} {bs : List β},
      mapOpt f l = some bs → List.Forall₂ (fun a b => f a = some b) l bs := by
  intro l
  induction l with
  | nil =>
    intro bs h
    simp [mapOpt_nil] at h
    subst h
    exact List.Forall₂.nil
  | cons a as ih =>
    intro bs h
    rw [mapOpt_cons] at h
    cases hfa : f a with
    | none => rw [hfa] at h; simp at h
    | some b =>
      rw [hfa] at h
      cases hrest : mapOpt f as with
      | none => rw [hrest] at h; simp at h
      | some bs' =>
        rw [hrest] at h
        simp at h
        rw [← h]
        exact List.Forall₂.cons hfa (ih hrest)

theorem dictLookup_value :
    ∀ {entries : List (String × Obj)} {keys : List String}
      {g : String → Option Obj},
      List.Forall₂ (fun h p => (g h).map (fun o => (h, o)) = some p) keys entries →
      ∀ k ∈ keys, dictLookup entries k = g k := by
  intro entries keys g hfa
  induction hfa with
  | nil => intro k hk; simp at hk
  | cons hab hrest ih =>
    intro k hk
    rename_i h p hs ps
    have hp : ∃ o, g h = some o ∧ p = (h, o) := by
      cases hgh : g h with
      | none => rw [hgh] at hab; simp at hab
      | some o =>
        rw [hgh] at hab
        simp at hab
        exact ⟨o, rfl, hab.symm⟩
    rcases hp with ⟨o, hgh, rfl⟩
    rw [dictLookup]
    by_cases hhk : h = k
    · rw [if_pos hhk, ← hhk, hgh]
    · rw [if_neg hhk]
      rcases List.mem_cons.mp hk with hk1 | hk1
      · exact absurd hk1.symm hhk
      · exact ih k hk1

/-- The value a converted row mapping associates with a column name present
in the dataset: the object-mode formatting of the cell retrieved by that
name. -/
theorem objRowSpec_lookup {cols : List String} {row : List PyObject}
    {d : List (String × Obj)} (hd : objRowSpec cols row = some d)
    {k : String} (hk : k ∈ cols) :
    dictLookup d k = (pyLookup cols row k).bind formatObject := by
  rw [objRowSpec] at hd
  have hfa := mapOpt_forall₂_of_some hd
  exact dictLookup_value hfa k (by rw [dedupFirst_mem]; exact hk)

/-- Looking up a column name in a row built positionally from the column
list retrieves exactly the value built for the first occurrence of that
name. -/
theorem pyLookup_of_map {cols : List String} {f : String → PyObject} {k : String}
    (hk : k ∈ cols) : pyLookup cols (cols.map f) k = some (f k) := by
  unfold pyLookup
  cases hidx : findFirst cols k with
  | none =>
    have := findFirst_isSome_of_mem hk
    rw [hidx] at this
    simp at this
  | some j =>
    have hget := findFirst_get hidx
    show (cols.map f).get? j = some (f k)
    rw [List.get?_map, hget]
    simp

/-!
The converters read cells only through by-name lookup, so their output is
determined by the by-name views of the rows.
-/

theorem jsonPiece_congr {cols : List String} {r r' : List PyObject} {h : String}
    (hagree : pyLookup cols r h = pyLookup cols r' h) :
    jsonPiece cols r h = jsonPiece cols r' h := by
  unfold jsonPiece
  rw [hagree]

theorem specRow_congr {cols : List String} {r r' : List PyObject}
    (hagree : ∀ h ∈ cols, pyLookup cols r h = pyLookup cols r' h) :
    specRow cols r = specRow cols r' := by
  rw [specRow, specRow, mapOpt_congr (fun h hh => jsonPiece_congr (hagree h hh))]

theorem specBody_congr {cols : List String} {rows rows' : List (List PyObject)}
    (hfa : List.Forall₂ (fun r r' => ∀ h ∈ cols, pyLookup cols r h = pyLookup cols r' h)
      rows rows') :
    specBody cols rows = specBody cols rows' := by
  rw [specBody, specBody]
  exact congrArg (Option.map joinComma)
    (mapOpt_forall₂_eq (List.Forall₂.imp (fun _ _ hagree => specRow_congr hagree) hfa))

theorem toJsonAux_congr {cols : List String} {rows rows' : List (List PyObject)}
    (hfa : List.Forall₂ (fun r r' => ∀ h ∈ cols, pyLookup cols r h = pyLookup cols r' h)
      rows rows') (root : Option String) (isRoot : Bool) :
    toJsonAux cols rows root isRoot = toJsonAux cols rows' root isRoot := by
  rw [toJsonAux_eq_specBody, toJsonAux_eq_specBody, specBody_congr hfa]

theorem objRowSpec_congr {cols : List String} {r r' : List PyObject}
    (hagree : ∀ h ∈ cols, pyLookup cols r h = pyLookup cols r' h) :
    objRowSpec cols r = objRowSpec cols r' := by
  rw [objRowSpec, objRowSpec]
  apply mapOpt_congr
  intro h hh
  rw [hagree h ((dedupFirst_mem cols h).mp hh)]

theorem objRows_congr {cols : List String} {rows rows' : List (List PyObject)}
    (hfa : List.Forall₂ (fun r r' => ∀ h ∈ cols, pyLookup cols r h = pyLookup cols r' h)
      rows rows') :
    objRows cols rows = objRows cols rows' := by
  rw [objRows_eq, objRows_eq]
  exact mapOpt_forall₂_eq (List.Forall₂.imp (fun _ _ hagree => objRowSpec_congr hagree) hfa)

theorem xmlCells_congr {cols : List String} {r r' : List PyObject}
    (hagree : ∀ h ∈ cols, pyLookup cols r h = pyLookup cols r' h) :
    ∀ (hs : List String), (∀ h ∈ hs, h ∈ cols) →
      ∀ (x : NanoXML), xmlCells cols r hs x = xmlCells cols r' hs x := by
  intro hs
  induction hs with
  | nil => intro _ x; rw [xmlCells, xmlCells]
  | cons h hs ih =>
    intro hsub x
    rw [xmlCells, xmlCells, ← hagree h (hsub h (by simp))]
    cases hcell : pyLookup cols r h with
    | none => simp [hcell]
    | some v =>
      simp only [hcell]
      exact ih (fun h' hh' => hsub h' (by simp [hh'])) _

theorem xmlRows_congr {cols : List String} {rows rows' : List (List PyObject)}
    (hfa : List.Forall₂ (fun r r' => ∀ h ∈ cols, pyLookup cols r h = pyLookup cols r' h)
      rows rows') :
    ∀ (element : String) (x : NanoXML),
      xmlRows cols rows element x = xmlRows cols rows' element x := by
  induction hfa with
  | nil => intro element x; rw [xmlRows]
  | cons hab hrest ih =>
    rename_i r r' rs rs'
    intro element x
    have e1 : xmlRows cols (r :: rs) element x =
        match xmlCells cols r cols (x.addElement element) with
        | none => none
        | some x' => xmlRows cols rs element (x'.closeElement element) := by
      rw [xmlRows]
    have e2 : xmlRows cols (r' :: rs') element x =
        match xmlCells cols r' cols (x.addElement element) with
        | none => none
        | some x' => xmlRows cols rs' element (x'.closeElement element) := by
      rw [xmlRows]
    rw [e1, e2, ← xmlCells_congr hab cols (fun _ hh => hh) (x.addElement element)]
    cases hc : xmlCells cols r cols (x.addElement element) with
    | none => simp
    | some x' =>
      simp only []
      exact ih element _

/-! Remaining helpers for the constructor round trip. -/

theorem forall₂_imp_mem {α β : Type} {P Q : α → β → Prop} :
    ∀ {l : List α} {l' : List β}, List.Forall₂ P l l' →
      (∀ a ∈ l, ∀ b, P a b → Q a b) → List.Forall₂ Q l l' := by
  intro l l' hfa
  induction hfa with
  | nil => intro _; exact .nil
  | cons hab hrest ih =>
    intro h
    exact .cons (h _ (by simp) _ hab) (ih (fun a ha b hb => h a (by simp [ha]) b hb))

theorem dictKeys_of_forall₂ {g : String → Option Obj} :
    ∀ {keys : List String} {entries : List (String × Obj)},
      List.Forall₂ (fun h p => (g h).map (fun o => (h, o)) = some p) keys entries →
      entries.map Prod.fst = keys := by
  intro keys entries hfa
  induction hfa with
  | nil => rfl
  | cons hab hrest ih =>
    rename_i h p hs ps
    have hfst : p.1 = h := by
      cases hgh : g h with
      | none => rw [hgh] at hab; simp at hab
      | some o =>
        rw [hgh] at hab
        simp at hab
        rw [← hab]
    simp [hfst, ih]

theorem assocLookup_mem :
    ∀ {m : List (String × PyObject)} {k : String} {v : PyObject},
      assocLookup m k = some v → (k, v) ∈ m := by
  intro m
  induction m with
  | nil => intro k v h; rw [assocLookup] at h; simp at h
  | cons p rest ih =>
    intro k v h
    obtain ⟨k', v'⟩ := p
    rw [assocLookup] at h
    by_cases hk : k' = k
    · rw [if_pos hk] at h
      simp at h
      simp [hk, ← h]
    · rw [if_neg hk] at h
      simp [ih h]

theorem dedupFirstAux_nodup :
    ∀ (l seen : List String), (dedupFirstAux l seen).Nodup := by
  intro l
  induction l with
  | nil => intro seen; rw [dedupFirstAux]; simp
  | cons h hs ih =>
    intro seen
    rw [dedupFirstAux]
    by_cases hmem : h ∈ seen
    · rw [if_pos hmem]; exact ih seen
    · rw [if_neg hmem]
      rw [List.nodup_cons]
      refine ⟨?_, ih (h :: seen)⟩
      intro hc
      have := ((dedupFirstAux_mem hs (h :: seen) h).mp hc).2
      simp at this

theorem keyUnion_nodup (L : List (List (String × PyObject))) : (keyUnion L).Nodup := by
  rw [keyUnion, dedupFirst]
  exact dedupFirstAux_nodup _ []

theorem keyUnion_mem_of {L : List (List (String × PyObject))}
    {m : List (String × PyObject)} {k : String} {v : PyObject}
    (hm : m ∈ L) (hkv : (k, v) ∈ m) : k ∈ keyUnion L := by
  rw [keyUnion, dedupFirst_mem]
  rw [List.mem_flatten]
  exact ⟨m.map Prod.fst, List.mem_map.mpr ⟨m, hm, rfl⟩, List.mem_map.mpr ⟨(k, v), hkv, rfl⟩⟩

theorem mapOpt_map {α γ β : Type} (f : γ → Option β) (g : α → γ) :
    ∀ (l : List α), mapOpt f (l.map g) = mapOpt (fun a => f (g a)) l := by
  intro l
  induction l with
  | nil => simp [mapOpt_nil]
  | cons a as ih => rw [List.map_cons, mapOpt_cons, mapOpt_cons, ih]

/-!
The claims.
-/

/-- Claim C1: for every dataset and every non-`None` root key `r`,
`to_json` produces exactly the array wrapped as `{"r":[...]}` (outer braces
present, the array keyed by `r`), and with root `None` the bare array
`[...]`; the body is the comma-join (`joinComma`, no trailing comma) of the
row objects, each of which is the comma-join of its column pieces in column
order restarting at every row (`specRow`, `specBody`). -/
theorem claim_c1 (cols : List String) (rows : List (List PyObject)) (r : String) :
    to_json cols rows (some r) =
      (specBody cols rows).map
        (fun body => "\x7b" ++ ("\"" ++ r ++ "\":[") ++ body ++ "]" ++ "\x7d") ∧
    to_json cols rows none =
      (specBody cols rows).map (fun body => "[" ++ body ++ "]") := by
  constructor
  · rw [to_json, toJsonAux_eq_specBody]
    cases hm : specBody cols rows with
    | none => simp
    | some body => simp
  · rw [to_json, toJsonAux_eq_specBody]
    cases hm : specBody cols rows with
    | none => simp
    | some body => simp

/-- Claim C2: in JSON mode the Value Formatter renders a `Null` cell as the
literal `null`; a `Text` cell as a double quote, the raw text verbatim with
no escaping, and a closing double quote; and a `Timestamp` cell as a
double-quoted string in the `yyyy-MM-dd'T'HH:mm:ss.SSSXXX` format (ISO-8601
with milliseconds and numeric UTC offset). -/
theorem claim_c2 :
    (∀ header, formatValue .pynone header = some "null") ∧
    (∀ s header, formatValue (.pystr s) header = some ("\"" ++ s ++ "\"")) ∧
    (∀ d header, formatValue (.pydate d) header = some ("\"" ++ formatDate d ++ "\"")) ∧
    (∀ d, formatDate d =
      padNum 4 d.year ++ "-" ++ padNum 2 d.month ++ "-" ++ padNum 2 d.day ++ "T" ++
        padNum 2 d.hour ++ ":" ++ padNum 2 d.minute ++ ":" ++ padNum 2 d.second ++ "." ++
        padNum 3 d.millis ++ offsetXXX d.offsetMinutes) := by
  refine ⟨fun header => ?_, fun s header => ?_, fun d header => ?_, fun d => ?_⟩
  · rw [formatValue]
  · rw [formatValue]
  · rw [formatValue]
  · rw [formatDate]

/-- Claim C3: when cell (r, c) holds a nested dataset N, the fragment
emitted at that position equals the JSON conversion of N with root equal to
the column name and `is_root = false` — no `"columnName":` prefix is added
by the converter itself — and the whole output of `to_json` decomposes into
exactly these per-column fragments. -/
theorem claim_c3 (cols : List String) (rows : List (List PyObject))
    (row : List PyObject) (h : String) (nc : List String) (nr : List (List PyObject))
    (hcell : pyLookup cols row h = some (.pyds nc nr)) :
    jsonPiece cols row h = toJsonAux nc nr (some h) false ∧
    to_json cols rows none =
      (mapOpt (specRow cols) rows).map (fun rs => "[" ++ joinComma rs ++ "]") := by
  refine ⟨jsonPiece_ds hcell, ?_⟩
  rw [to_json, toJsonAux_eq_specBody, specBody]
  cases hm : mapOpt (specRow cols) rows with
  | none => simp
  | some rs => simp

theorem claim_c3_witness :
    jsonPiece ["n"] [PyObject.pyds ["c"] []] "n" = toJsonAux ["c"] [] (some "n") false :=
  (claim_c3 ["n"] [[PyObject.pyds ["c"] []]] [PyObject.pyds ["c"] []] "n" ["c"] []
    (by rfl)).1

/-- Claim C4: the input `[{"a":1,"b":"x"}, {"a":2}]` yields the dataset with
columns `["a","b"]` and rows `[1,"x"]`, `[2,null]`, and `to_json` of that
dataset with root `None` yields exactly
`[{"a":1,"b":"x"},{"a":2,"b":null}]`. -/
theorem claim_c4 :
    from_list_of_dicts [[("a", PyObject.pyint 1), ("b", PyObject.pystr "x")],
        [("a", PyObject.pyint 2)]] =
      (["a", "b"], [[PyObject.pyint 1, PyObject.pystr "x"],
        [PyObject.pyint 2, PyObject.pynone]]) ∧
    to_json ["a", "b"] [[PyObject.pyint 1, PyObject.pystr "x"],
        [PyObject.pyint 2, PyObject.pynone]] none =
      some "[\x7b\"a\":1,\"b\":\"x\"\x7d,\x7b\"a\":2,\"b\":null\x7d]" := by
  constructor
  · rfl
  · simp [to_json, toJsonAux, jsonRows, jsonCells, formatValue, pyLookup, findFirst,
      isDataset, intRepr, natRepr, natReprAux, digitChar]

/-- Claim C6: the 1-row, 2-column dataset `[["id","name"],[[7,"Ann"]]]` with
root `"root"`, row element `"row"` and the default tab indent converts to
exactly `<root>\n\t<row>\n\t\t<id>7</id>\n\t\t<name>Ann</name>\n\t</row>\n</root>`,
with no trailing newline after the closing root tag. -/
theorem claim_c6 :
    to_xml ["id", "name"] [[PyObject.pyint 7, PyObject.pystr "Ann"]] "root" "row" "\t" =
      some "<root>\n\t<row>\n\t\t<id>7</id>\n\t\t<name>Ann</name>\n\t</row>\n</root>" := by
  simp [to_xml, xmlRows, xmlCells, pyLookup, findFirst, pyStr, NanoXML.init,
    NanoXML.addElement, NanoXML.addSubElement, NanoXML.closeElement, NanoXML.to_string,
    intRepr, natRepr, natReprAux, digitChar]

theorem forall₂_mem_right {α β : Type} {P : α → β → Prop} :
    ∀ {l : List α} {l' : List β}, List.Forall₂ P l l' → ∀ b ∈ l', ∃ a ∈ l, P a b := by
  intro l l' hfa
  induction hfa with
  | nil => intro b hb; simp at hb
  | cons hab hrest ih =>
    intro b hb
    rcases List.mem_cons.mp hb with hb | hb
    · subst hb; exact ⟨_, by simp, hab⟩
    · rcases ih b hb with ⟨a, ha, hPa⟩
      exact ⟨a, by simp [ha], hPa⟩

/-- Claim C5: for every dataset (including 0-row ones), `to_jsonobject`
returns one mapping per row (length equals the row count); each mapping's
keys are the dataset's column names in column order (the distinct names in
first-occurrence order, which is the full column list whenever the names
are distinct), and each value is the by-name cell formatted in object
mode. -/
theorem claim_c5 (cols : List String) (rows : List (List PyObject)) :
    to_jsonobject cols rows = mapOpt (objRowSpec cols) rows ∧
    (∀ out, to_jsonobject cols rows = some out →
      out.length = rows.length ∧
      (∀ d ∈ out, d.map Prod.fst = dedupFirst cols) ∧
      (cols.Nodup → ∀ d ∈ out, d.map Prod.fst = cols) ∧
      List.Forall₂ (fun row d => ∀ k ∈ cols,
        dictLookup d k = (pyLookup cols row k).bind formatObject) rows out) := by
  have h1 : to_jsonobject cols rows = mapOpt (objRowSpec cols) rows := by
    rw [to_jsonobject, objRows_eq]
  refine ⟨h1, ?_⟩
  intro out hout
  rw [h1] at hout
  have hfa := mapOpt_forall₂_of_some hout
  have hkeys : ∀ d ∈ out, d.map Prod.fst = dedupFirst cols := by
    intro d hd
    rcases forall₂_mem_right hfa d hd with ⟨row, _, hrow⟩
    have hrow' := hrow
    rw [objRowSpec] at hrow'
    exact dictKeys_of_forall₂ (mapOpt_forall₂_of_some hrow')
  refine ⟨mapOpt_length hout, hkeys, ?_, ?_⟩
  · intro hnodup d hd
    rw [hkeys d hd, dedupFirst_of_nodup hnodup]
  · exact forall₂_imp_mem hfa (fun row _ d hd k hk => objRowSpec_lookup hd hk)

theorem claim_c5_witness :
    ([[("a", Obj.scalar (PyObject.pyint 1))]] : List (List (String × Obj))).length =
      ([[PyObject.pyint 1]] : List (List PyObject)).length :=
  ((claim_c5 ["a"] [[PyObject.pyint 1]]).2 [[("a", Obj.scalar (PyObject.pyint 1))]]
    (by simp [to_jsonobject, objRows, objRowFold, pyLookup, findFirst, formatObject,
      dictInsert])).1

/-- Claim C7 fails as stated: a mapping value that is itself a nested
dataset does not come back as the same value — the round trip returns its
object conversion (`Obj.table []`), not the original nested-dataset
value. -/
theorem claim_c7_counterexample :
    ∃ out, to_jsonobject (from_list_of_dicts [[("k", PyObject.pyds ["c"] [])]]).1
        (from_list_of_dicts [[("k", PyObject.pyds ["c"] [])]]).2 = some out ∧
      out.length = 1 ∧
      ∀ d ∈ out, dictLookup d "k" = some (Obj.table []) ∧
        dictLookup d "k" ≠ some (Obj.scalar (PyObject.pyds ["c"] [])) := by
  refine ⟨[[("k", Obj.table [])]], ?_, rfl, ?_⟩
  · simp [from_list_of_dicts, keyUnion, dedupFirst, dedupFirstAux, assocLookup,
      to_jsonobject, objRows, objRowFold, pyLookup, findFirst, formatObject, dictInsert]
  · intro d hd
    simp at hd
    subst hd
    exact ⟨rfl, by simp [dictLookup]⟩

/-- Claim C7 (amended): for every list of mappings whose nested-dataset
values are valid, the round trip through `from_list_of_dicts` and
`to_jsonobject` yields one mapping per input mapping over the union of all
keys; every key present in a given input mapping comes back as its
object-mode formatting — the very same value whenever it is not a nested
dataset, the object conversion of the nested dataset otherwise — and every
column key absent from that mapping comes back as null. -/
theorem claim_c7_amended (L : List (List (String × PyObject)))
    (hvalid : ∀ m ∈ L, ∀ p ∈ m, validObj p.2 = true) :
    (from_list_of_dicts L).1 = keyUnion L ∧
    (from_list_of_dicts L).2.length = L.length ∧
    ∃ out,
      to_jsonobject (from_list_of_dicts L).1 (from_list_of_dicts L).2 = some out ∧
      List.Forall₂ (fun m d =>
        d.map Prod.fst = keyUnion L ∧
        (∀ k v, assocLookup m k = some v →
          dictLookup d k = formatObject v ∧
          (isDataset v = false → dictLookup d k = some (.scalar v))) ∧
        (∀ k ∈ keyUnion L, assocLookup m k = none →
          dictLookup d k = some (.scalar .pynone))) L out := by
  refine ⟨rfl, by simp [from_list_of_dicts], ?_⟩
  have e2 : (from_list_of_dicts L).2 = L.map (fun m => (keyUnion L).map (fun h =>
      match assocLookup m h with
      | some v => v
      | none => PyObject.pynone)) := rfl
  rw [show (from_list_of_dicts L).1 = keyUnion L from rfl, e2, to_jsonobject, objRows_eq,
    mapOpt_map]
  have hsome : (mapOpt (fun m => objRowSpec (keyUnion L) ((keyUnion L).map (fun h =>
      match assocLookup m h with
      | some v => v
      | none => PyObject.pynone))) L).isSome := by
    apply mapOpt_isSome
    intro m hm
    rw [objRowSpec]
    apply mapOpt_isSome
    intro h hh
    rw [isSome_map]
    have hhk : h ∈ keyUnion L := (dedupFirst_mem _ h).mp hh
    rw [pyLookup_of_map hhk]
    cases hav : assocLookup m h with
    | some v =>
      simp only [hav, Option.some_bind]
      exact formatObject_isSome (hvalid m hm (h, v) (assocLookup_mem hav))
    | none =>
      simp only [hav, Option.some_bind]
      rw [formatObject_scalar (show isDataset .pynone = false by simp [isDataset])]
      simp
  obtain ⟨out, hout⟩ := Option.isSome_iff_exists.mp hsome
  refine ⟨out, hout, ?_⟩
  apply forall₂_imp_mem (mapOpt_forall₂_of_some hout)
  intro m hm d hd
  refine ⟨?_, ?_, ?_⟩
  · have hd' := hd
    rw [objRowSpec] at hd'
    rw [dictKeys_of_forall₂ (mapOpt_forall₂_of_some hd')]
    exact dedupFirst_of_nodup (keyUnion_nodup L)
  · intro k v hkv
    have hk : k ∈ keyUnion L := keyUnion_mem_of hm (assocLookup_mem hkv)
    have hlookup := objRowSpec_lookup hd hk
    rw [pyLookup_of_map hk] at hlookup
    simp only [hkv, Option.some_bind] at hlookup
    refine ⟨hlookup, ?_⟩
    intro hnds
    rw [hlookup, formatObject_scalar hnds]
  · intro k hk hnone
    have hlookup := objRowSpec_lookup hd hk
    rw [pyLookup_of_map hk] at hlookup
    simp only [hnone, Option.some_bind] at hlookup
    rw [hlookup, formatObject_scalar (show isDataset .pynone = false by simp [isDataset])]

theorem claim_c7_witness :
    (from_list_of_dicts [[("a", PyObject.pyint 1)]]).1 =
      keyUnion [[("a", PyObject.pyint 1)]] :=
  (claim_c7_amended [[("a", PyObject.pyint 1)]] (by
    intro m hm p hp
    simp at hm
    subst hm
    simp at hp
    subst hp
    simp [validObj])).1

/-- Claim C9: on every valid dataset (every row has exactly one cell per
column and every nested dataset is itself valid), each of `to_json`,
`to_jsonobject` and `to_xml` returns a result without raising any error
(the `Option` result is `some`), including through the recursion on nested
dataset cells. -/
theorem claim_c9 (cols : List String) (rows : List (List PyObject))
    (hvalid : validRows cols rows = true) (root : Option String)
    (rootName element indent : String) :
    (to_json cols rows root).isSome ∧ (to_jsonobject cols rows).isSome ∧
    (to_xml cols rows rootName element indent).isSome := by
  refine ⟨?_, ?_, to_xml_isSome hvalid rootName element indent⟩
  · rw [to_json]
    exact toJsonAux_isSome (sizeOf rows) cols rows (le_refl _) hvalid root true
  · rw [to_jsonobject]
    exact objRows_isSome (sizeOf rows) cols rows (le_refl _) hvalid

theorem claim_c9_witness :
    (to_json ["a"] [[PyObject.pyds ["b"] [[PyObject.pyint 1]]]] none).isSome ∧
    (to_jsonobject ["a"] [[PyObject.pyds ["b"] [[PyObject.pyint 1]]]]).isSome ∧
    (to_xml ["a"] [[PyObject.pyds ["b"] [[PyObject.pyint 1]]]] "root" "row" "\t").isSome :=
  claim_c9 ["a"] [[PyObject.pyds ["b"] [[PyObject.pyint 1]]]]
    (by simp [validRows, validCells, validObj]) none "root" "row" "\t"

/-- Claim C10: all three converters retrieve each cell by column name
(first matching column), so their outputs are fully determined by the
by-name views of the rows; on the concrete dataset with duplicated column
name `a` and cells 1 and 2, every occurrence of `a` in all three outputs
carries the first column's value 1 and the second column's cell 2 appears
in none of them. -/
theorem claim_c10 (cols : List String) (rows rows' : List (List PyObject))
    (hagree : List.Forall₂ (fun r r' => ∀ h ∈ cols,
      pyLookup cols r h = pyLookup cols r' h) rows rows')
    (root : Option String) (rootName element indent : String) :
    (to_json cols rows root = to_json cols rows' root ∧
     to_jsonobject cols rows = to_jsonobject cols rows' ∧
     to_xml cols rows rootName element indent =
       to_xml cols rows' rootName element indent) ∧
    (to_json ["a", "a"] [[PyObject.pyint 1, PyObject.pyint 2]] none =
      some "[\x7b\"a\":1,\"a\":1\x7d]" ∧
     to_jsonobject ["a", "a"] [[PyObject.pyint 1, PyObject.pyint 2]] =
      some [[("a", Obj.scalar (PyObject.pyint 1))]] ∧
     to_xml ["a", "a"] [[PyObject.pyint 1, PyObject.pyint 2]] "root" "row" "\t" =
      some "<root>\n\t<row>\n\t\t<a>1</a>\n\t\t<a>1</a>\n\t</row>\n</root>") := by
  refine ⟨⟨?_, ?_, ?_⟩, ?_, ?_, ?_⟩
  · rw [to_json, to_json]
    exact toJsonAux_congr hagree root true
  · rw [to_jsonobject, to_jsonobject]
    exact objRows_congr hagree
  · rw [to_xml, to_xml]
    exact congrArg (Option.map NanoXML.to_string)
      (xmlRows_congr hagree element (NanoXML.init rootName indent))
  · simp [to_json, toJsonAux, jsonRows, jsonCells, formatValue, pyLookup, findFirst,
      isDataset, intRepr, natRepr, natReprAux, digitChar]
  · simp [to_jsonobject, objRows, objRowFold, pyLookup, findFirst, formatObject,
      dictInsert]
  · simp [to_xml, xmlRows, xmlCells, pyLookup, findFirst, pyStr, NanoXML.init,
      NanoXML.addElement, NanoXML.addSubElement, NanoXML.closeElement, NanoXML.to_string,
      intRepr, natRepr, natReprAux, digitChar]

theorem claim_c10_witness :
    to_json ["a", "a"] [[PyObject.pyint 1, PyObject.pyint 2]] none =
      to_json ["a", "a"] [[PyObject.pyint 1, PyObject.pyint 777]] none :=
  ((claim_c10 ["a", "a"] [[PyObject.pyint 1, PyObject.pyint 2]]
      [[PyObject.pyint 1, PyObject.pyint 777]]
      (by
        refine List.Forall₂.cons ?_ List.Forall₂.nil
        intro h hh
        have hha : h = "a" := by simpa using hh
        subst hha
        rfl)
      none "root" "row" "\t").1).1

/-- Claim C8 (amended): for every clean dataset — all rows well-sized, all
column names and text cells free of quotes, backslashes and control
characters, and no boolean or fallback-repr cells — `to_json` with root
`None` is exactly the standard rendering of a JSON array (`renderJson` on a
`good` value is genuine JSON text) with one object per row, whose keys are
exactly the dataset's column names in column order. -/
theorem claim_c8_amended (cols : List String) (rows : List (List PyObject))
    (hclean : cleanTable cols rows = true) :
    to_json cols rows none = some (renderJson (.arr (jsonTable cols rows))) ∧
    goodJson (.arr (jsonTable cols rows)) = true ∧
    (jsonTable cols rows).length = rows.length ∧
    (∀ j ∈ jsonTable cols rows, ∃ ms, j = Json.obj ms ∧ ms.map Prod.fst = cols) := by
  refine ⟨?_, ?_, jsonTable_length cols rows, ?_⟩
  · rw [to_json, toJsonAux_eq_specBody,
      specBody_renders (sizeOf rows) cols rows (le_refl _) hclean]
    rw [renderJson]
    simp
  · rw [goodJson]
    exact jsonTable_good (sizeOf rows) cols rows (le_refl _) hclean
  · intro j hj
    rw [jsonTable_map] at hj
    rcases List.mem_map.mp hj with ⟨row, hrow, rfl⟩
    exact ⟨jsonRowMembers cols row cols, rfl, jsonRowMembers_keys cols row⟩

theorem claim_c8_witness :
    to_json ["a"] [[PyObject.pyint 1]] none =
      some (renderJson (.arr (jsonTable ["a"] [[PyObject.pyint 1]]))) :=
  (claim_c8_amended ["a"] [[PyObject.pyint 1]]
    (by simp [cleanTable, cleanRows, cleanCells, cleanObj, jsonCleanStr, jsonSafeChar])).1

/-- Claim C8 fails as stated: on the valid dataset with one text cell
holding a single double-quote character, `to_json` emits the quote
verbatim, and no standard JSON array of one single-key `"c"` object renders
to that text — the output does not parse as the claimed JSON. -/
theorem claim_c8_counterexample :
    validRows ["c"] [[PyObject.pystr "\""]] = true ∧
    to_json ["c"] [[PyObject.pystr "\""]] none = some "[\x7b\"c\":\"\"\"\x7d]" ∧
    ¬ ∃ (rowsJ : List (List (String × Json))),
        goodJson (.arr (rowsJ.map Json.obj)) = true ∧
        renderJson (.arr (rowsJ.map Json.obj)) = "[\x7b\"c\":\"\"\"\x7d]" ∧
        rowsJ.length = 1 ∧
        (∀ rj ∈ rowsJ, rj.map Prod.fst = ["c"]) := by
  refine ⟨by simp [validRows, validCells, validObj], ?_, ?_⟩
  · simp [to_json, toJsonAux, jsonRows, jsonCells, formatValue, pyLookup, findFirst,
      isDataset]
  · rintro ⟨rowsJ, hgood, hrender, hlen, hkeys⟩
    obtain ⟨rj, hrowsJ⟩ : ∃ rj, rowsJ = [rj] := by
      cases rowsJ with
      | nil => simp at hlen
      | cons rj rest =>
        cases rest with
        | nil => exact ⟨rj, rfl⟩
        | cons _ _ => simp at hlen
    subst hrowsJ
    have hrj := hkeys rj (by simp)
    obtain ⟨v, hrjv⟩ : ∃ v, rj = [("c", v)] := by
      cases rj with
      | nil => simp at hrj
      | cons p rest =>
        cases rest with
        | nil =>
          obtain ⟨k, v⟩ := p
          simp at hrj
          exact ⟨v, by rw [hrj]⟩
        | cons _ _ => simp at hrj
    subst hrjv
    simp only [List.map_cons, List.map_nil] at hrender hgood
    have hren : renderJson (Json.arr [Json.obj [(("c" : String), v)]]) =
        "[" ++ ("\x7b" ++ ("\"" ++ "c" ++ "\":" ++ renderJson v) ++ "\x7d") ++ "]" := by
      rw [renderJson, renderList, renderList, joinComma_single, renderJson,
        renderMembers, renderMembers, joinComma_single]
    rw [hren] at hrender
    have hdata := congrArg String.data hrender
    simp only [String.data_append] at hdata
    simp only [List.append_assoc, List.cons_append, List.nil_append] at hdata
    simp only [List.cons.injEq, true_and] at hdata
    have hv : (renderJson v).data = ['"', '"', '"'] := by
      have e9 : (['"', '"', '"', '\x7d', ']'] : List Char) = ['"', '"', '"'] ++ ['\x7d', ']'] :=
        rfl
      rw [e9] at hdata
      exact (List.append_inj' hdata rfl).1
    cases v with
    | null =>
      rw [renderJson] at hv
      have e10 : ("null" : String).data = ['n', 'u', 'l', 'l'] := rfl
      rw [e10] at hv
      simp at hv
    | bool b =>
      cases b
      · rw [renderJson] at hv
        simp only [Bool.false_eq_true, if_false] at hv
        simp at hv
      · rw [renderJson] at hv
        simp only [if_true] at hv
        simp at hv
    | num m =>
      rw [renderJson] at hv
      exact intRepr_head_not_quote m ['"', '"'] hv
    | str s =>
      rw [renderJson] at hv
      simp only [String.data_append] at hv
      simp only [List.append_assoc, List.cons_append, List.nil_append] at hv
      simp only [List.cons.injEq, true_and] at hv
      have hs : s.data = ['"'] := by
        have e13 : (['"', '"'] : List Char) = ['"'] ++ ['"'] := rfl
        rw [e13] at hv
        exact (List.append_inj' hv rfl).1
      have hg : jsonCleanStr s = true := by
        rw [goodJson, goodList_iff] at hgood
        have h1 := hgood (Json.obj [("c", Json.str s)]) (by simp)
        rw [goodJson, goodMembers_iff] at h1
        have h2 := (h1 ("c", Json.str s) (by simp)).2
        rw [goodJson] at h2
        exact h2
      rw [jsonCleanStr, hs] at hg
      exact absurd hg (by decide)
    | arr l =>
      rw [renderJson] at hv
      simp only [String.data_append] at hv
      simp only [List.append_assoc, List.cons_append, List.nil_append] at hv
      simp at hv
    | obj ms =>
      rw [renderJson] at hv
      simp only [String.data_append] at hv
      simp only [List.append_assoc, List.cons_append, List.nil_append] at hv
      simp at hv

end Incendium
